import Mathlib

/-!
Shallow embedding of the decision-tree / random-forest implementation in
`src/actual.py`, together with theorems settling the specification claims.

Modelling conventions:
* A data row is a `List ℚ`: the feature values followed by the label in the
  last position (`row[-1]` in the source is `labelOf`).
* Python float arithmetic is modelled as exact rational arithmetic (`ℚ`);
  all the quantities the program computes (counts, probabilities, Gini
  impurities, gains) are ratios of integers.
* A Python dict used as a label histogram is modelled as an insertion-ordered
  association list `List (ℚ × Nat)` (Python dicts preserve insertion order,
  which the code's tie-breaking scans rely on).
* Iteration over a Python `set` has unspecified order; the embedding fixes the
  order as `List.dedup` of the observed values.
-/

/-- Embedding of `row[-1]` (line 23 of `src/actual.py`): the label stored in
the last position of a row. The default `0` is never reached on the non-empty
rows the program handles. -/
def labelOf (row : List ℚ) : ℚ := row.getLastD 0

/-- One step of the counting loop of `class_counts` (lines 22-26): increment
the entry of `l` if present, else append a new entry `(l, 1)` at the end
(Python dict insertion order). -/
def bump : List (ℚ × Nat) → ℚ → List (ℚ × Nat)
  | [], l => [(l, 1)]
  | (k, c) :: rest, l => if k = l then (k, c + 1) :: rest else (k, c) :: bump rest l

/-- Embedding of `class_counts` (lines 12-27): the label histogram of a row
list, as an insertion-ordered association list label ↦ count. -/
def class_counts (rows : List (List ℚ)) : List (ℚ × Nat) :=
  rows.foldl (fun cl r => bump cl (labelOf r)) []

/-- Embedding of the `Question` class (lines 52-63): a feature index and a
threshold value. -/
structure Question where
  feature : Nat
  value : ℚ
deriving DecidableEq, Repr

/-- Embedding of `Question.match` (lines 62-63): `against[feature] >= value`.
Out-of-range access (impossible for the rectangular rows the program builds
questions from) is modelled with default `0`. -/
def qmatch (q : Question) (against : List ℚ) : Bool :=
  decide (q.value ≤ against.getD q.feature 0)

/-- Embedding of `Tree.partition` (lines 136-149): rows matching the question
in order, then the non-matching rows in order. -/
def partition (rows : List (List ℚ)) (q : Question) : List (List ℚ) × List (List ℚ) :=
  (rows.filter (fun r => qmatch q r), rows.filter (fun r => !qmatch q r))

/-- Embedding of `Tree.gini` (lines 152-162): `1 - Σ_label (count/samples)²`,
the sum running over the entries of the label histogram. On the empty row set
the histogram is empty and the result is exactly `1`; the division by the
zero sample count is never performed. -/
def gini (rows : List (List ℚ)) : ℚ :=
  1 - ((class_counts rows).map (fun p => ((p.2 : ℚ) / (rows.length : ℚ)) ^ 2)).sum

/-- Embedding of `Tree.info_gain` (lines 165-174):
`cur - p·gini(left) - (1-p)·gini(right)` with `p = |left| / (|left|+|right|)`. -/
def info_gain (left right : List (List ℚ)) (current_uncertainty : ℚ) : ℚ :=
  let prob_left : ℚ := (left.length : ℚ) / ((left.length : ℚ) + (right.length : ℚ))
  current_uncertainty - prob_left * gini left - (1 - prob_left) * gini right

/-- Candidate questions enumerated by `Tree.find_best_split` (lines 186-192):
for every feature column `col < len(rows[0]) - 1`, every distinct value
observed in that column. Python iterates a `set`; the embedding fixes the
iteration order as `List.dedup`. -/
def candidates (rows : List (List ℚ)) : List Question :=
  (List.range ((rows.headD []).length - 1)).flatMap
    (fun col => ((rows.map (fun r => r.getD col 0)).dedup).map (fun v => ⟨col, v⟩))

/-- Body of the candidate loop of `Tree.find_best_split` (lines 191-205):
skip the candidate if either side of its partition has fewer than
`stopping_criteria` rows, otherwise record `(gain, question)` whenever
`gain >= most_gain` (non-strict comparison, line 203). -/
def fbs_step (sc : ℚ) (rows : List (List ℚ)) (cur : ℚ)
    (acc : ℚ × Option Question) (q : Question) : ℚ × Option Question :=
  let t := (partition rows q).1
  let f := (partition rows q).2
  if (t.length : ℚ) < sc ∨ (f.length : ℚ) < sc then acc
  else if acc.1 ≤ info_gain t f cur then (info_gain t f cur, some q) else acc

/-- Embedding of `Tree.find_best_split` (lines 177-207): fold the candidate
loop from the initial accumulator `(0, none)`. -/
def find_best_split (sc : ℚ) (rows : List (List ℚ)) : ℚ × Option Question :=
  (candidates rows).foldl (fbs_step sc rows (gini rows)) (0, none)

/-- A candidate split passes the row-count floor of line 196: both sides of
its partition have at least `stopping_criteria` rows. -/
def eligible (sc : ℚ) (rows : List (List ℚ)) (q : Question) : Prop :=
  sc ≤ ((partition rows q).1.length : ℚ) ∧ sc ≤ ((partition rows q).2.length : ℚ)

instance (sc : ℚ) (rows : List (List ℚ)) (q : Question) : Decidable (eligible sc rows q) :=
  inferInstanceAs (Decidable (And _ _))

/-- The information gain of the split induced by question `q` on `rows`,
measured against the parent impurity, as computed on lines 193-200. -/
def qgain (rows : List (List ℚ)) (q : Question) : ℚ :=
  info_gain (partition rows q).1 (partition rows q).2 (gini rows)

/-- Embedding of the `Node` class (lines 66-95) as a tagged union: a leaf
(`is_decision = 0`) holds the label histogram of the rows that reached it, a
decision (`is_decision = 1`) holds a question and the two branches. -/
inductive Node where
  | leaf (predictions : List (ℚ × Nat))
  | decision (question : Question) (true_branch false_branch : Node)
deriving DecidableEq, Repr

/-- Embedding of `Node.top_pick` (lines 98-105): scan the histogram in
insertion order starting from `(best_class, best_number) = (0, 0)` and keep an
entry whenever its count strictly exceeds the current best. -/
def top_pick (predictions : List (ℚ × Nat)) : ℚ :=
  (predictions.foldl (fun best p => if best.2 < p.2 then p else best) ((0 : ℚ), (0 : Nat))).1

/-- Embedding of `Tree.classify` (lines 282-293): walk decisions following the
question's match, return `top_pick` at a leaf. -/
def classify (row : List ℚ) : Node → ℚ
  | .leaf cl => top_pick cl
  | .decision q t f => if qmatch q row then classify row t else classify row f

/-- Number of recursive calls `classify` makes before reaching a leaf. -/
def classify_steps (row : List ℚ) : Node → Nat
  | .leaf _ => 0
  | .decision q t f => 1 + (if qmatch q row then classify_steps row t else classify_steps row f)

/-- The histogram of the leaf that `classify` reaches for a given row. -/
def reach (row : List ℚ) : Node → List (ℚ × Nat)
  | .leaf cl => cl
  | .decision q t f => if qmatch q row then reach row t else reach row f

/-- Depth of a node tree (leaves have depth 0). -/
def depth : Node → Nat
  | .leaf _ => 0
  | .decision _ t f => 1 + max (depth t) (depth f)

/-- Total histogram weight of the leaves below a node: the number of training
rows that reached the subtree at build time. -/
def weight : Node → Nat
  | .leaf cl => (cl.map Prod.snd).sum
  | .decision _ t f => weight t + weight f

-- sanity examples (concrete evaluation of the embedded code)
example : class_counts [[1, 0], [2, 0], [3, 1]] = [(0, 2), (1, 1)] := by decide
example : gini [[1, 0], [2, 0]] = 0 := by norm_num [gini, class_counts, bump, labelOf]
example : gini [[1, 0], [2, 1]] = 1 / 2 := by norm_num [gini, class_counts, bump, labelOf]
example : partition [[1, 0], [2, 0], [3, 1]] ⟨0, 2⟩ = ([[2, 0], [3, 1]], [[1, 0]]) := by decide
example : top_pick [(5, 1), (7, 3), (9, 3)] = 7 := by decide

/-! ### Histogram (`class_counts`) lemmas -/

/-- Total count stored under key `l` in an association list (0 when absent). -/
def keyCount (cl : List (ℚ × Nat)) (l : ℚ) : Nat :=
  ((cl.filter (fun p => decide (p.1 = l))).map Prod.snd).sum

lemma bump_map_snd_sum (cl : List (ℚ × Nat)) (l : ℚ) :
    ((bump cl l).map Prod.snd).sum = (cl.map Prod.snd).sum + 1 := by
  induction cl with
  | nil => simp [bump]
  | cons p rest ih =>
    obtain ⟨k, c⟩ := p
    by_cases h : k = l <;> simp [bump, h, ih] <;> omega

lemma foldl_bump_sum (rows : List (List ℚ)) :
    ∀ cl : List (ℚ × Nat),
      (((rows.foldl (fun cl r => bump cl (labelOf r)) cl)).map Prod.snd).sum
        = (cl.map Prod.snd).sum + rows.length := by
  induction rows with
  | nil => intro cl; simp
  | cons r rest ih =>
    intro cl
    simp only [List.foldl_cons, ih (bump cl (labelOf r)), bump_map_snd_sum,
      List.length_cons]
    omega

/-- The histogram entries sum to the number of rows counted. -/
lemma class_counts_sum (rows : List (List ℚ)) :
    ((class_counts rows).map Prod.snd).sum = rows.length := by
  simpa using foldl_bump_sum rows []

lemma keyCount_cons (k : ℚ) (c : Nat) (rest : List (ℚ × Nat)) (l : ℚ) :
    keyCount ((k, c) :: rest) l = (if k = l then c else 0) + keyCount rest l := by
  by_cases h : k = l <;> simp [keyCount, List.filter_cons, h]

lemma bump_keyCount (cl : List (ℚ × Nat)) (l' l : ℚ) :
    keyCount (bump cl l') l = keyCount cl l + if l = l' then 1 else 0 := by
  induction cl with
  | nil =>
    by_cases h : l = l'
    · subst h; simp [bump, keyCount]
    · have h' : l' ≠ l := fun hh => h hh.symm
      simp [bump, keyCount, h, h']
  | cons p rest ih =>
    obtain ⟨k, c⟩ := p
    by_cases hk : k = l'
    · subst hk
      have hb : bump ((k, c) :: rest) k = (k, c + 1) :: rest := by simp [bump]
      rw [hb, keyCount_cons, keyCount_cons]
      by_cases hl : k = l
      · subst hl; simp; omega
      · have hl' : ¬l = k := fun hh => hl hh.symm
        simp [hl, hl']
    · have hb : bump ((k, c) :: rest) l' = (k, c) :: bump rest l' := by simp [bump, hk]
      rw [hb, keyCount_cons, keyCount_cons, ih]
      omega

lemma foldl_bump_keyCount (rows : List (List ℚ)) (l : ℚ) :
    ∀ cl : List (ℚ × Nat),
      keyCount (rows.foldl (fun cl r => bump cl (labelOf r)) cl) l
        = keyCount cl l + (rows.map labelOf).count l := by
  induction rows with
  | nil => intro cl; simp
  | cons r rest ih =>
    intro cl
    rw [List.foldl_cons, ih (bump cl (labelOf r)), bump_keyCount, List.map_cons,
      List.count_cons]
    by_cases h : l = labelOf r
    · simp [h]; omega
    · simp [h]; exact fun hh => h hh.symm

/-- The count stored for a label equals the number of rows carrying it. -/
lemma class_counts_keyCount (rows : List (List ℚ)) (l : ℚ) :
    keyCount (class_counts rows) l = (rows.map labelOf).count l := by
  simpa [keyCount] using foldl_bump_keyCount rows l []

lemma bump_map_fst (cl : List (ℚ × Nat)) (l : ℚ) :
    (bump cl l).map Prod.fst
      = if l ∈ cl.map Prod.fst then cl.map Prod.fst else cl.map Prod.fst ++ [l] := by
  induction cl with
  | nil => simp [bump]
  | cons p rest ih =>
    obtain ⟨k, c⟩ := p
    by_cases hk : k = l
    · subst hk; simp [bump]
    · have hk' : ¬l = k := fun hh => hk hh.symm
      have hb : bump ((k, c) :: rest) l = (k, c) :: bump rest l := by simp [bump, hk]
      rw [hb]
      by_cases hm : l ∈ rest.map Prod.fst <;> simp [ih, hm, hk']

lemma bump_keys_nodup (cl : List (ℚ × Nat)) (l : ℚ)
    (h : (cl.map Prod.fst).Nodup) : ((bump cl l).map Prod.fst).Nodup := by
  rw [bump_map_fst]
  split
  · exact h
  · next hmem =>
    rw [List.nodup_append]
    exact ⟨h, List.nodup_singleton l, fun a ha hb => hmem ((List.mem_singleton.mp hb) ▸ ha)⟩

/-- The histogram keys are pairwise distinct. -/
lemma class_counts_keys_nodup (rows : List (List ℚ)) :
    (((class_counts rows)).map Prod.fst).Nodup := by
  suffices h : ∀ cl : List (ℚ × Nat), (cl.map Prod.fst).Nodup →
      (((rows.foldl (fun cl r => bump cl (labelOf r)) cl)).map Prod.fst).Nodup by
    exact h [] (by simp)
  induction rows with
  | nil => intro cl hcl; simpa using hcl
  | cons r rest ih =>
    intro cl hcl
    exact ih (bump cl (labelOf r)) (bump_keys_nodup cl (labelOf r) hcl)

lemma bump_pos (cl : List (ℚ × Nat)) (l : ℚ) (h : ∀ p ∈ cl, 0 < p.2) :
    ∀ p ∈ bump cl l, 0 < p.2 := by
  induction cl with
  | nil => simp [bump]
  | cons q rest ih =>
    obtain ⟨k, c⟩ := q
    by_cases hk : k = l
    · subst hk
      intro p hp
      rcases (by simpa [bump] using hp : p = (k, c + 1) ∨ p ∈ rest) with h1 | h1
      · simp [h1]
      · exact h p (List.mem_cons_of_mem _ h1)
    · intro p hp
      rcases (by simpa [bump, hk] using hp : p = (k, c) ∨ p ∈ bump rest l) with h1 | h1
      · exact h p (by simp [h1])
      · exact ih (fun q hq => h q (List.mem_cons_of_mem _ hq)) p h1

/-- Every histogram entry has a positive count. -/
lemma class_counts_pos (rows : List (List ℚ)) :
    ∀ p ∈ class_counts rows, 0 < p.2 := by
  suffices h : ∀ cl : List (ℚ × Nat), (∀ p ∈ cl, 0 < p.2) →
      ∀ p ∈ rows.foldl (fun cl r => bump cl (labelOf r)) cl, 0 < p.2 by
    exact h [] (by simp)
  induction rows with
  | nil => intro cl hcl; simpa using hcl
  | cons r rest ih =>
    intro cl hcl
    exact ih (bump cl (labelOf r)) (bump_pos cl (labelOf r) hcl)

lemma keyCount_eq_zero (cl : List (ℚ × Nat)) (l : ℚ) (h : l ∉ cl.map Prod.fst) :
    keyCount cl l = 0 := by
  induction cl with
  | nil => simp [keyCount]
  | cons p rest ih =>
    obtain ⟨k, c⟩ := p
    rw [keyCount_cons]
    have hk : ¬k = l := fun hh => h (by simp [hh])
    simp [hk, ih (fun hh => h (by simp [hh]))]

lemma keyCount_entry (cl : List (ℚ × Nat)) (hnd : (cl.map Prod.fst).Nodup) :
    ∀ p ∈ cl, keyCount cl p.1 = p.2 := by
  induction cl with
  | nil => simp
  | cons q rest ih =>
    obtain ⟨k, c⟩ := q
    rw [List.map_cons] at hnd
    have hk : k ∉ rest.map Prod.fst := (List.nodup_cons.mp hnd).1
    intro p hp
    rcases List.mem_cons.mp hp with h1 | h1
    · subst h1
      rw [keyCount_cons, if_pos rfl, keyCount_eq_zero rest _ hk]
      simp
    · rw [keyCount_cons]
      have hne : ¬k = p.1 := by
        intro hh
        exact hk (hh ▸ (List.mem_map_of_mem Prod.fst h1))
      rw [if_neg hne, Nat.zero_add]
      exact ih (List.nodup_cons.mp hnd).2 p h1

lemma keyCount_pos_of_mem (cl : List (ℚ × Nat)) (hpos : ∀ p ∈ cl, 0 < p.2) (l : ℚ)
    (h : l ∈ cl.map Prod.fst) : 0 < keyCount cl l := by
  induction cl with
  | nil => simp at h
  | cons q rest ih =>
    obtain ⟨k, c⟩ := q
    rw [keyCount_cons]
    rcases (by simpa using h : l = k ∨ l ∈ rest.map Prod.fst) with h1 | h1
    · have : (0 : Nat) < c := hpos (k, c) (by simp)
      simp [h1.symm]; omega
    · have := ih (fun p hp => hpos p (List.mem_cons_of_mem _ hp)) h1
      omega

/-- A label is a histogram key exactly when some row carries it. -/
lemma class_counts_key_mem (rows : List (List ℚ)) (l : ℚ) :
    l ∈ (class_counts rows).map Prod.fst ↔ l ∈ rows.map labelOf := by
  constructor
  · intro h
    have := keyCount_pos_of_mem _ (class_counts_pos rows) l h
    rw [class_counts_keyCount] at this
    exact List.count_pos_iff.mp this
  · intro h
    by_contra hmem
    have h0 := keyCount_eq_zero _ _ hmem
    rw [class_counts_keyCount] at h0
    have hpos := List.count_pos_iff.mpr h
    omega

lemma class_counts_ne_nil (rows : List (List ℚ)) (h : rows ≠ []) :
    class_counts rows ≠ [] := by
  intro hnil
  have hs := class_counts_sum rows
  rw [hnil] at hs
  simp at hs
  exact h (List.eq_nil_of_length_eq_zero hs.symm)

/-- Rewriting a sum over histogram entries as a sum over any finite superset
of the keys: absent keys contribute `g 0 = 0`. -/
lemma assoc_map_sum (cl : List (ℚ × Nat)) (g : Nat → ℚ)
    (hnd : (cl.map Prod.fst).Nodup) (hg : g 0 = 0) (L : Finset ℚ)
    (hL : ∀ p ∈ cl, p.1 ∈ L) :
    (cl.map (fun p => g p.2)).sum = ∑ l ∈ L, g (keyCount cl l) := by
  have h1 : cl.map (fun p => g p.2) = cl.map (fun p => g (keyCount cl p.1)) :=
    List.map_congr_left (fun p hp => by rw [keyCount_entry cl hnd p hp])
  have h2 : cl.map (fun p => g (keyCount cl p.1))
      = (cl.map Prod.fst).map (fun l => g (keyCount cl l)) := by
    rw [List.map_map]; rfl
  have h3 : ((cl.map Prod.fst).map (fun l => g (keyCount cl l))).sum
      = ∑ l ∈ (cl.map Prod.fst).toFinset, g (keyCount cl l) :=
    (List.sum_toFinset _ hnd).symm
  rw [h1, h2, h3]
  refine Finset.sum_subset ?_ ?_
  · intro l hl
    rcases List.mem_map.mp (List.mem_toFinset.mp hl) with ⟨p, hp, hpl⟩
    exact hpl ▸ hL p hp
  · intro l _ hl
    rw [keyCount_eq_zero cl l (fun hm => hl (List.mem_toFinset.mpr hm)), hg]

/-- `gini` as a sum over any finite superset `L` of the labels present:
`gini rows = 1 - Σ_{l ∈ L} (count(l)/|rows|)²`. -/
lemma gini_eq_sum (rows : List (List ℚ)) (L : Finset ℚ)
    (hL : ∀ l ∈ rows.map labelOf, l ∈ L) :
    gini rows
      = 1 - ∑ l ∈ L, (((rows.map labelOf).count l : ℚ) / (rows.length : ℚ)) ^ 2 := by
  rw [gini]
  congr 1
  have h := assoc_map_sum (class_counts rows)
    (fun c => ((c : ℚ) / (rows.length : ℚ)) ^ 2)
    (class_counts_keys_nodup rows) (by simp) L
    (fun p hp => hL p.1 ((class_counts_key_mem rows p.1).mp
      (List.mem_map_of_mem Prod.fst hp)))
  rw [h]
  refine Finset.sum_congr rfl (fun l _ => ?_)
  rw [class_counts_keyCount]

/-! ### Gini impurity bounds -/

lemma gini_nil : gini [] = 1 := by norm_num [gini, class_counts]

lemma sum_counts_cast (rows : List (List ℚ)) :
    ∑ l ∈ (rows.map labelOf).toFinset, (((rows.map labelOf).count l : ℚ))
      = (rows.length : ℚ) := by
  have h := List.sum_toFinset_count_eq_length (rows.map labelOf)
  have h2 : ((∑ l ∈ (rows.map labelOf).toFinset, (rows.map labelOf).count l : Nat) : ℚ)
      = ((rows.map labelOf).length : ℚ) := by rw [h]
  rw [Nat.cast_sum] at h2
  simpa using h2

lemma count_le_length_cast (rows : List (List ℚ)) (l : ℚ) :
    (((rows.map labelOf).count l : ℚ)) ≤ (rows.length : ℚ) := by
  have := List.count_le_length l (rows.map labelOf)
  rw [List.length_map] at this
  exact_mod_cast this

lemma gini_nonneg (rows : List (List ℚ)) : 0 ≤ gini rows := by
  rcases eq_or_ne rows [] with h | h
  · rw [h, gini_nil]; norm_num
  · have hn : (0 : ℚ) < (rows.length : ℚ) := by
      exact_mod_cast List.length_pos.mpr h
    rw [gini_eq_sum rows (rows.map labelOf).toFinset (fun l hl => List.mem_toFinset.mpr hl)]
    have hsum : ∑ l ∈ (rows.map labelOf).toFinset,
        (((rows.map labelOf).count l : ℚ) / (rows.length : ℚ)) ^ 2 ≤ 1 := by
      calc ∑ l ∈ (rows.map labelOf).toFinset,
            (((rows.map labelOf).count l : ℚ) / (rows.length : ℚ)) ^ 2
          ≤ ∑ l ∈ (rows.map labelOf).toFinset,
            (((rows.map labelOf).count l : ℚ) / (rows.length : ℚ)) := by
            refine Finset.sum_le_sum (fun l _ => ?_)
            have h0 : 0 ≤ ((rows.map labelOf).count l : ℚ) / (rows.length : ℚ) :=
              div_nonneg (by positivity) (le_of_lt hn)
            have h1 : ((rows.map labelOf).count l : ℚ) / (rows.length : ℚ) ≤ 1 :=
              (div_le_one hn).mpr (count_le_length_cast rows l)
            nlinarith
        _ = 1 := by
            rw [← Finset.sum_div, sum_counts_cast, div_self (ne_of_gt hn)]
    linarith

/-- The Gini impurity is at most `1 - 1/k` for `k` distinct labels. -/
lemma gini_le_one_sub (rows : List (List ℚ)) (h : rows ≠ []) :
    gini rows ≤ 1 - 1 / ((rows.map labelOf).toFinset.card : ℚ) := by
  have hn : (0 : ℚ) < (rows.length : ℚ) := by
    exact_mod_cast List.length_pos.mpr h
  have hkpos : 0 < (rows.map labelOf).toFinset.card := by
    refine Finset.card_pos.mpr ?_
    refine ⟨labelOf (rows.headD []), List.mem_toFinset.mpr ?_⟩
    exact List.mem_map_of_mem labelOf (by
      cases rows with
      | nil => exact absurd rfl h
      | cons r rest => exact List.mem_cons_self r rest)
  have hk : (0 : ℚ) < ((rows.map labelOf).toFinset.card : ℚ) := by exact_mod_cast hkpos
  rw [gini_eq_sum rows (rows.map labelOf).toFinset (fun l hl => List.mem_toFinset.mpr hl)]
  have hcs := sq_sum_le_card_mul_sum_sq
    (s := (rows.map labelOf).toFinset)
    (f := fun l => ((rows.map labelOf).count l : ℚ) / (rows.length : ℚ))
  rw [show ∑ l ∈ (rows.map labelOf).toFinset,
      ((rows.map labelOf).count l : ℚ) / (rows.length : ℚ) = 1 by
    rw [← Finset.sum_div, sum_counts_cast, div_self (ne_of_gt hn)]] at hcs
  have h1k : 1 / ((rows.map labelOf).toFinset.card : ℚ)
      ≤ ∑ l ∈ (rows.map labelOf).toFinset,
        (((rows.map labelOf).count l : ℚ) / (rows.length : ℚ)) ^ 2 := by
    rw [div_le_iff₀ hk]
    calc (1 : ℚ) = 1 ^ 2 := by norm_num
      _ ≤ ((rows.map labelOf).toFinset.card : ℚ) * ∑ l ∈ (rows.map labelOf).toFinset,
            (((rows.map labelOf).count l : ℚ) / (rows.length : ℚ)) ^ 2 := by
          simpa using hcs
      _ = _ := by ring
  linarith

/-- The Gini impurity of a non-empty row set is `0` exactly when all rows
carry the same label. -/
lemma gini_eq_zero_iff (rows : List (List ℚ)) (h : rows ≠ []) :
    gini rows = 0 ↔ ∀ r ∈ rows, labelOf r = labelOf (rows.headD []) := by
  have hn : (0 : ℚ) < (rows.length : ℚ) := by
    exact_mod_cast List.length_pos.mpr h
  have hhead : rows.headD [] ∈ rows := by
    cases rows with
    | nil => exact absurd rfl h
    | cons r rest => exact List.mem_cons_self r rest
  constructor
  · intro h0
    rw [gini_eq_sum rows (rows.map labelOf).toFinset
      (fun l hl => List.mem_toFinset.mpr hl)] at h0
    have hS : ∑ l ∈ (rows.map labelOf).toFinset,
        (((rows.map labelOf).count l : ℚ) / (rows.length : ℚ)) ^ 2 = 1 := by linarith
    -- each term of Σ (x - x²) is nonnegative and the total is 0, so x ∈ {0,1} termwise
    have hzero : ∑ l ∈ (rows.map labelOf).toFinset,
        ((((rows.map labelOf).count l : ℚ) / (rows.length : ℚ))
          - (((rows.map labelOf).count l : ℚ) / (rows.length : ℚ)) ^ 2) = 0 := by
      rw [Finset.sum_sub_distrib, hS,
        show ∑ l ∈ (rows.map labelOf).toFinset,
          ((rows.map labelOf).count l : ℚ) / (rows.length : ℚ) = 1 by
        rw [← Finset.sum_div, sum_counts_cast, div_self (ne_of_gt hn)]]
      ring
    have hterm : ∀ l ∈ (rows.map labelOf).toFinset,
        (((rows.map labelOf).count l : ℚ) / (rows.length : ℚ))
          - (((rows.map labelOf).count l : ℚ) / (rows.length : ℚ)) ^ 2 = 0 := by
      refine (Finset.sum_eq_zero_iff_of_nonneg (fun l _ => ?_)).mp hzero
      have h0 : 0 ≤ ((rows.map labelOf).count l : ℚ) / (rows.length : ℚ) :=
        div_nonneg (by positivity) (le_of_lt hn)
      have h1 : ((rows.map labelOf).count l : ℚ) / (rows.length : ℚ) ≤ 1 :=
        (div_le_one hn).mpr (count_le_length_cast rows l)
      nlinarith
    -- every label present in the rows occurs in all of them
    have hall : ∀ l ∈ (rows.map labelOf).toFinset,
        ((rows.map labelOf).count l : ℚ) = (rows.length : ℚ) := by
      intro l hl
      have ht := hterm l hl
      have hpos : 0 < ((rows.map labelOf).count l : ℚ) := by
        have := List.count_pos_iff.mpr (List.mem_toFinset.mp hl)
        exact_mod_cast this
      have hx : ((rows.map labelOf).count l : ℚ) / (rows.length : ℚ) = 1 := by
        have hxpos : 0 < ((rows.map labelOf).count l : ℚ) / (rows.length : ℚ) :=
          div_pos hpos hn
        nlinarith
      field_simp at hx
      exact_mod_cast hx
    intro r hr
    have hhl : labelOf (rows.headD []) ∈ (rows.map labelOf).toFinset :=
      List.mem_toFinset.mpr (List.mem_map_of_mem labelOf hhead)
    have hcnt := hall _ hhl
    have hcnt' : (rows.map labelOf).count (labelOf (rows.headD []))
        = (rows.map labelOf).length := by
      rw [List.length_map]; exact_mod_cast hcnt
    have := List.count_eq_length.mp hcnt'
    exact (this (labelOf r) (List.mem_map_of_mem labelOf hr)).symm
  · intro hall
    have hsub : ∀ l ∈ rows.map labelOf, l ∈ ({labelOf (rows.headD [])} : Finset ℚ) := by
      intro l hl
      rcases List.mem_map.mp hl with ⟨r, hr, hrl⟩
      simp [← hrl, hall r hr]
    rw [gini_eq_sum rows _ hsub]
    have hcnt : (rows.map labelOf).count (labelOf (rows.headD []))
        = (rows.map labelOf).length :=
      List.count_eq_length.mpr
        (fun b hb => by
          rcases List.mem_map.mp hb with ⟨r, hr, hrl⟩
          rw [← hrl, hall r hr])
    rw [Finset.sum_singleton, hcnt, List.length_map, div_self (ne_of_gt hn)]
    norm_num

/-! ### Partition lemmas -/

lemma partition_perm (rows : List (List ℚ)) (q : Question) :
    List.Perm ((partition rows q).1 ++ (partition rows q).2) rows :=
  List.filter_append_perm _ rows

lemma partition_length (rows : List (List ℚ)) (q : Question) :
    (partition rows q).1.length + (partition rows q).2.length = rows.length := by
  have h := (partition_perm rows q).length_eq
  simpa [List.length_append] using h

lemma partition_true_nil (rows : List (List ℚ)) (q : Question)
    (h : (partition rows q).1 = []) : (partition rows q).2 = rows := by
  have hall := List.filter_eq_nil_iff.mp h
  exact List.filter_eq_self.mpr (fun r hr => by simpa using hall r hr)

lemma partition_false_nil (rows : List (List ℚ)) (q : Question)
    (h : (partition rows q).2 = []) : (partition rows q).1 = rows := by
  have hall := List.filter_eq_nil_iff.mp h
  refine List.filter_eq_self.mpr (fun r hr => ?_)
  have := hall r hr
  simpa using this

/-! ### Information gain: degenerate splits have zero gain -/

lemma info_gain_nil_left (rows : List (List ℚ)) :
    info_gain [] rows (gini rows) = 0 := by
  simp [info_gain]

lemma info_gain_nil_right (rows : List (List ℚ)) :
    info_gain rows [] (gini rows) = 0 := by
  rcases eq_or_ne rows [] with h | h
  · subst h; simp [info_gain, gini_nil]
  · have hn : ((rows.length : ℚ)) ≠ 0 := by
      exact_mod_cast Nat.pos_iff_ne_zero.mp (List.length_pos.mpr h)
    simp [info_gain, div_self hn]

lemma qgain_left_nil (rows : List (List ℚ)) (q : Question)
    (h : (partition rows q).1 = []) : qgain rows q = 0 := by
  rw [qgain, h, partition_true_nil rows q h, info_gain_nil_left]

lemma qgain_right_nil (rows : List (List ℚ)) (q : Question)
    (h : (partition rows q).2 = []) : qgain rows q = 0 := by
  rw [qgain, h, partition_false_nil rows q h, info_gain_nil_right]

/-! ### Information gain is never negative (concavity of Gini) -/

lemma split_term_nonneg (a b nt nf : ℚ) (hnt : 0 < nt) (hnf : 0 < nf) :
    ((a + b) / (nt + nf)) ^ 2
      ≤ nt / (nt + nf) * (a / nt) ^ 2 + nf / (nt + nf) * (b / nf) ^ 2 := by
  have hn : 0 < nt + nf := by linarith
  have e1 : nt / (nt + nf) * (a / nt) ^ 2 = a ^ 2 / (nt * (nt + nf)) := by
    field_simp
    ring
  have e2 : nf / (nt + nf) * (b / nf) ^ 2 = b ^ 2 / (nf * (nt + nf)) := by
    field_simp
    ring
  rw [e1, e2, div_pow,
    div_add_div _ _ (by positivity : nt * (nt + nf) ≠ 0) (by positivity : nf * (nt + nf) ≠ 0),
    div_le_div_iff₀ (by positivity) (by positivity)]
  nlinarith [mul_nonneg (mul_nonneg (sq_nonneg (a * nf - b * nt)) hn.le) hn.le]

/-- Concavity of the Gini impurity: splitting a row set into two non-empty
parts never yields negative information gain. -/
lemma info_gain_nonneg_of_perm (t f rows : List (List ℚ))
    (hperm : List.Perm (t ++ f) rows) (ht : t ≠ []) (hf : f ≠ []) :
    0 ≤ info_gain t f (gini rows) := by
  have hlab : List.Perm (t.map labelOf ++ f.map labelOf) (rows.map labelOf) := by
    simpa [List.map_append] using hperm.map labelOf
  set L : Finset ℚ := (rows.map labelOf).toFinset with hL
  have hmemL : ∀ l ∈ rows.map labelOf, l ∈ L := fun l hl => List.mem_toFinset.mpr hl
  have hmemLt : ∀ l ∈ t.map labelOf, l ∈ L := by
    intro l hl
    exact hmemL l (hlab.mem_iff.mp (List.mem_append.mpr (Or.inl hl)))
  have hmemLf : ∀ l ∈ f.map labelOf, l ∈ L := by
    intro l hl
    exact hmemL l (hlab.mem_iff.mp (List.mem_append.mpr (Or.inr hl)))
  have hcount : ∀ l : ℚ, (rows.map labelOf).count l
      = (t.map labelOf).count l + (f.map labelOf).count l := by
    intro l
    rw [← hlab.count_eq, List.count_append]
  have hnt : (0 : ℚ) < (t.length : ℚ) := by
    exact_mod_cast List.length_pos.mpr ht
  have hnf : (0 : ℚ) < (f.length : ℚ) := by
    exact_mod_cast List.length_pos.mpr hf
  have hlen : (rows.length : ℚ) = (t.length : ℚ) + (f.length : ℚ) := by
    have := hperm.length_eq
    rw [List.length_append] at this
    exact_mod_cast this.symm
  simp only [info_gain]
  rw [gini_eq_sum rows L hmemL, gini_eq_sum t L hmemLt, gini_eq_sum f L hmemLf]
  set nt : ℚ := (t.length : ℚ)
  set nf : ℚ := (f.length : ℚ)
  set p : ℚ := nt / (nt + nf) with hp
  have hsplit :
      (1 - ∑ l ∈ L, (((rows.map labelOf).count l : ℚ) / (rows.length : ℚ)) ^ 2)
        - p * (1 - ∑ l ∈ L, (((t.map labelOf).count l : ℚ) / nt) ^ 2)
        - (1 - p) * (1 - ∑ l ∈ L, (((f.map labelOf).count l : ℚ) / nf) ^ 2)
      = ∑ l ∈ L,
          (p * (((t.map labelOf).count l : ℚ) / nt) ^ 2
            + (1 - p) * (((f.map labelOf).count l : ℚ) / nf) ^ 2
            - (((rows.map labelOf).count l : ℚ) / (rows.length : ℚ)) ^ 2) := by
    rw [Finset.sum_sub_distrib, Finset.sum_add_distrib, ← Finset.mul_sum, ← Finset.mul_sum]
    ring
  rw [hsplit]
  refine Finset.sum_nonneg (fun l _ => ?_)
  have hc : ((rows.map labelOf).count l : ℚ)
      = ((t.map labelOf).count l : ℚ) + ((f.map labelOf).count l : ℚ) := by
    exact_mod_cast hcount l
  have hp1 : 1 - p = nf / (nt + nf) := by
    rw [hp]
    field_simp
  rw [hc, hlen, hp1, hp]
  have := split_term_nonneg ((t.map labelOf).count l : ℚ) ((f.map labelOf).count l : ℚ)
    nt nf hnt hnf
  linarith

/-- Every candidate split has non-negative gain: degenerate splits have gain
exactly `0`, and proper splits are covered by concavity. -/
lemma qgain_nonneg (rows : List (List ℚ)) (q : Question) : 0 ≤ qgain rows q := by
  rcases eq_or_ne (partition rows q).1 [] with h1 | h1
  · rw [qgain_left_nil rows q h1]
  · rcases eq_or_ne (partition rows q).2 [] with h2 | h2
    · rw [qgain_right_nil rows q h2]
    · exact info_gain_nonneg_of_perm _ _ _ (partition_perm rows q) h1 h2

/-- A split with strictly positive gain has two non-empty sides. -/
lemma qgain_pos_sides (rows : List (List ℚ)) (q : Question) (h : 0 < qgain rows q) :
    (partition rows q).1 ≠ [] ∧ (partition rows q).2 ≠ [] := by
  constructor
  · intro hnil
    rw [qgain_left_nil rows q hnil] at h
    exact lt_irrefl 0 h
  · intro hnil
    rw [qgain_right_nil rows q hnil] at h
    exact lt_irrefl 0 h

/-! ### `find_best_split` fold invariants -/

lemma not_reject_iff (sc : ℚ) (rows : List (List ℚ)) (q : Question) :
    ¬(((partition rows q).1.length : ℚ) < sc ∨ ((partition rows q).2.length : ℚ) < sc)
      ↔ eligible sc rows q := by
  rw [eligible]
  push_neg
  rfl

lemma foldl_fbs_inv (sc : ℚ) (rows : List (List ℚ))
    (cands : List Question) (acc : ℚ × Option Question)
    (h0 : 0 ≤ acc.1) (hn : acc.2 = none → acc.1 = 0)
    (hs : ∀ q, acc.2 = some q → eligible sc rows q ∧ acc.1 = qgain rows q) :
    0 ≤ (cands.foldl (fbs_step sc rows (gini rows)) acc).1
      ∧ ((cands.foldl (fbs_step sc rows (gini rows)) acc).2 = none
          → (cands.foldl (fbs_step sc rows (gini rows)) acc).1 = 0)
      ∧ (∀ q, (cands.foldl (fbs_step sc rows (gini rows)) acc).2 = some q
          → eligible sc rows q
            ∧ (cands.foldl (fbs_step sc rows (gini rows)) acc).1 = qgain rows q) := by
  induction cands generalizing acc with
  | nil => exact ⟨h0, hn, hs⟩
  | cons q rest ih =>
    rw [List.foldl_cons]
    by_cases hrej : ((partition rows q).1.length : ℚ) < sc
        ∨ ((partition rows q).2.length : ℚ) < sc
    · rw [show fbs_step sc rows (gini rows) acc q = acc by
        simp only [fbs_step]
        rw [if_pos hrej]]
      exact ih acc h0 hn hs
    · have helig : eligible sc rows q := (not_reject_iff sc rows q).mp hrej
      by_cases hup : acc.1 ≤ info_gain (partition rows q).1 (partition rows q).2 (gini rows)
      · rw [show fbs_step sc rows (gini rows) acc q
            = (info_gain (partition rows q).1 (partition rows q).2 (gini rows), some q) by
          simp only [fbs_step]
          rw [if_neg hrej, if_pos hup]]
        refine ih _ (le_trans h0 hup) (by simp) ?_
        intro q' hq'
        cases hq'
        exact ⟨helig, rfl⟩
      · rw [show fbs_step sc rows (gini rows) acc q = acc by
          simp only [fbs_step]
          rw [if_neg hrej, if_neg hup]]
        exact ih acc h0 hn hs

/-- The returned gain of `find_best_split` is never negative. -/
lemma fbs_fst_nonneg (sc : ℚ) (rows : List (List ℚ)) :
    0 ≤ (find_best_split sc rows).1 :=
  (foldl_fbs_inv sc rows (candidates rows) (0, none) (le_refl 0)
    (fun _ => rfl) (fun q h => by cases h)).1

/-- When `find_best_split` returns no question, the returned gain is `0`. -/
lemma fbs_none_fst (sc : ℚ) (rows : List (List ℚ))
    (h : (find_best_split sc rows).2 = none) : (find_best_split sc rows).1 = 0 :=
  (foldl_fbs_inv sc rows (candidates rows) (0, none) (le_refl 0)
    (fun _ => rfl) (fun q hq => by cases hq)).2.1 h

/-- When `find_best_split` returns a question, that question passed the
row-count floor and the returned gain is exactly its information gain. -/
lemma fbs_some (sc : ℚ) (rows : List (List ℚ)) (q : Question)
    (h : (find_best_split sc rows).2 = some q) :
    eligible sc rows q ∧ (find_best_split sc rows).1 = qgain rows q :=
  (foldl_fbs_inv sc rows (candidates rows) (0, none) (le_refl 0)
    (fun _ => rfl) (fun q hq => by cases hq)).2.2 q h

lemma foldl_fbs_fst_max (sc : ℚ) (rows : List (List ℚ)) (cur : ℚ)
    (cands : List Question) (acc : ℚ × Option Question) :
    (cands.foldl (fbs_step sc rows cur) acc).1
      = (cands.filter (fun q => decide (eligible sc rows q))).foldl
          (fun m q => max m (info_gain (partition rows q).1 (partition rows q).2 cur))
          acc.1 := by
  induction cands generalizing acc with
  | nil => rfl
  | cons q rest ih =>
    rw [List.foldl_cons, List.filter_cons]
    by_cases helig : eligible sc rows q
    · have hrej : ¬(((partition rows q).1.length : ℚ) < sc
          ∨ ((partition rows q).2.length : ℚ) < sc) := (not_reject_iff sc rows q).mpr helig
      rw [if_pos (by simpa using helig), List.foldl_cons, ih]
      congr 1
      simp only [fbs_step]
      rw [if_neg hrej, max_def]
      split <;> rfl
    · have hrej : ((partition rows q).1.length : ℚ) < sc
          ∨ ((partition rows q).2.length : ℚ) < sc := by
        by_contra hc
        exact helig ((not_reject_iff sc rows q).mp hc)
      rw [if_neg (by simpa using helig)]
      rw [show fbs_step sc rows cur acc q = acc by
        simp only [fbs_step]
        rw [if_pos hrej]]
      exact ih acc

lemma le_foldl_max (l : List ℚ) (z : ℚ) : z ≤ l.foldl max z := by
  induction l generalizing z with
  | nil => exact le_refl z
  | cons x rest ih => exact le_trans (le_max_left z x) (ih (max z x))

lemma mem_le_foldl_max (l : List ℚ) (z : ℚ) (x : ℚ) (hx : x ∈ l) :
    x ≤ l.foldl max z := by
  induction l generalizing z with
  | nil => simp at hx
  | cons y rest ih =>
    rcases List.mem_cons.mp hx with h | h
    · exact le_trans (h ▸ le_max_right z y) (le_foldl_max rest (max z y))
    · exact ih (max z y) h

lemma foldl_max_eq_init (l : List ℚ) (z : ℚ) (h : ∀ x ∈ l, x ≤ z) :
    l.foldl max z = z := by
  induction l with
  | nil => rfl
  | cons x rest ih =>
    rw [List.foldl_cons, max_eq_left (h x (by simp))]
    exact ih (fun y hy => h y (List.mem_cons_of_mem x hy))

/-- The gain returned by `find_best_split` is `0` exactly when no candidate
passing the row-count floor has strictly positive gain. -/
lemma fbs_fst_eq_zero_iff (sc : ℚ) (rows : List (List ℚ)) :
    (find_best_split sc rows).1 = 0
      ↔ ∀ q ∈ candidates rows, eligible sc rows q → qgain rows q = 0 := by
  rw [show (find_best_split sc rows).1
      = ((candidates rows).filter (fun q => decide (eligible sc rows q))).foldl
          (fun m q => max m (qgain rows q)) 0 from
    foldl_fbs_fst_max sc rows (gini rows) (candidates rows) (0, none)]
  have hmax : ((candidates rows).filter (fun q => decide (eligible sc rows q))).foldl
      (fun m q => max m (qgain rows q)) 0
      = (((candidates rows).filter (fun q => decide (eligible sc rows q))).map
          (qgain rows)).foldl max 0 := by
    rw [List.foldl_map]
  rw [hmax]
  constructor
  · intro h0 q hq helig
    have hmem : qgain rows q ∈ ((candidates rows).filter
        (fun q => decide (eligible sc rows q))).map (qgain rows) :=
      List.mem_map_of_mem _ (List.mem_filter.mpr ⟨hq, by simpa using helig⟩)
    have hle := mem_le_foldl_max _ 0 _ hmem
    rw [h0] at hle
    exact le_antisymm hle (qgain_nonneg rows q)
  · intro hall
    refine foldl_max_eq_init _ 0 (fun x hx => ?_)
    rcases List.mem_map.mp hx with ⟨q, hq, hqx⟩
    have := hall q (List.mem_filter.mp hq).1 (by simpa using (List.mem_filter.mp hq).2)
    rw [← hqx, this]

lemma foldl_fbs_none_iff (sc : ℚ) (rows : List (List ℚ))
    (cands : List Question) (acc : ℚ × Option Question)
    (h0 : 0 ≤ acc.1) (hn : acc.2 = none → acc.1 = 0) :
    ((cands.foldl (fbs_step sc rows (gini rows)) acc).2 = none
      ↔ acc.2 = none ∧ ∀ q ∈ cands, ¬eligible sc rows q) := by
  induction cands generalizing acc with
  | nil => simp
  | cons q rest ih =>
    rw [List.foldl_cons]
    by_cases helig : eligible sc rows q
    · have hrej : ¬(((partition rows q).1.length : ℚ) < sc
          ∨ ((partition rows q).2.length : ℚ) < sc) := (not_reject_iff sc rows q).mpr helig
      rcases hacc : acc.2 with _ | q''
      · have hup : acc.1 ≤ info_gain (partition rows q).1 (partition rows q).2 (gini rows) := by
          rw [hn hacc]
          exact qgain_nonneg rows q
        rw [show fbs_step sc rows (gini rows) acc q
            = (info_gain (partition rows q).1 (partition rows q).2 (gini rows), some q) by
          simp only [fbs_step]
          rw [if_neg hrej, if_pos hup]]
        rw [ih _ (qgain_nonneg rows q) (by simp)]
        simp [helig]
      · have hsome : (fbs_step sc rows (gini rows) acc q).2 ≠ none := by
          simp only [fbs_step]
          rw [if_neg hrej]
          split
          · simp
          · rw [hacc]; simp
        rcases hstep : (fbs_step sc rows (gini rows) acc q).2 with _ | q3
        · exact absurd hstep hsome
        · have h1 : 0 ≤ (fbs_step sc rows (gini rows) acc q).1 := by
            simp only [fbs_step]
            rw [if_neg hrej]
            split
            · exact qgain_nonneg rows q
            · exact h0
          rw [ih _ h1 (fun hh => absurd hh hsome)]
          simp [hstep, helig, hacc]
    · have hrej : ((partition rows q).1.length : ℚ) < sc
          ∨ ((partition rows q).2.length : ℚ) < sc := by
        by_contra hc
        exact helig ((not_reject_iff sc rows q).mp hc)
      rw [show fbs_step sc rows (gini rows) acc q = acc by
        simp only [fbs_step]
        rw [if_pos hrej]]
      rw [ih acc h0 hn]
      simp [helig]

/-- `find_best_split` returns no question exactly when no candidate passes
the row-count floor. -/
lemma fbs_none_iff (sc : ℚ) (rows : List (List ℚ)) :
    (find_best_split sc rows).2 = none
      ↔ ∀ q ∈ candidates rows, ¬eligible sc rows q := by
  rw [find_best_split, foldl_fbs_none_iff sc rows (candidates rows) (0, none)
    (le_refl 0) (fun _ => rfl)]
  simp

lemma fbs_pos_of_ne (sc : ℚ) (rows : List (List ℚ))
    (h : (find_best_split sc rows).1 ≠ 0) : 0 < (find_best_split sc rows).1 :=
  lt_of_le_of_ne (fbs_fst_nonneg sc rows) (Ne.symm h)

/-- When `find_best_split` reports non-zero gain, the winning question splits
the rows into two strictly smaller sides. -/
lemma build_sides (sc : ℚ) (rows : List (List ℚ)) (q : Question)
    (hne : (find_best_split sc rows).1 ≠ 0)
    (hq : (find_best_split sc rows).2 = some q) :
    (partition rows q).1.length < rows.length
      ∧ (partition rows q).2.length < rows.length := by
  have hgain := (fbs_some sc rows q hq).2
  have hpos : 0 < qgain rows q := by
    rw [← hgain]
    exact fbs_pos_of_ne sc rows hne
  obtain ⟨h1, h2⟩ := qgain_pos_sides rows q hpos
  have hlen := partition_length rows q
  have hl1 : 0 < (partition rows q).1.length := List.length_pos.mpr h1
  have hl2 : 0 < (partition rows q).2.length := List.length_pos.mpr h2
  omega

/-- Embedding of `Tree.build` (lines 232-255): leaf when the best gain is `0`,
otherwise partition on the winning question and recurse on both sides. The
`none` branch is unreachable — non-zero gain forces a recorded question
(`fbs_none_fst`) — and is given the leaf value. -/
def build (sc : ℚ) (rows : List (List ℚ)) : Node :=
  if h : (find_best_split sc rows).1 = 0 then .leaf (class_counts rows)
  else
    match hq : (find_best_split sc rows).2 with
    | none => .leaf (class_counts rows)
    | some q => .decision q (build sc (partition rows q).1) (build sc (partition rows q).2)
termination_by rows.length
decreasing_by
  · exact (build_sides sc rows q h hq).1
  · exact (build_sides sc rows q h hq).2

lemma build_leaf_eq (sc : ℚ) (rows : List (List ℚ))
    (h : (find_best_split sc rows).1 = 0) :
    build sc rows = .leaf (class_counts rows) := by
  rw [build, dif_pos h]

lemma build_decision_eq (sc : ℚ) (rows : List (List ℚ)) (q : Question)
    (h : (find_best_split sc rows).1 ≠ 0)
    (hq : (find_best_split sc rows).2 = some q) :
    build sc rows
      = .decision q (build sc (partition rows q).1) (build sc (partition rows q).2) := by
  rw [build, dif_neg h]
  split
  · next heq =>
    rw [hq] at heq
    cases heq
  · next q' heq =>
    rw [hq] at heq
    cases heq
    rfl

/-- Non-zero best gain forces a recorded best question. -/
lemma build_some_of_ne (sc : ℚ) (rows : List (List ℚ))
    (h : (find_best_split sc rows).1 ≠ 0) :
    ∃ q, (find_best_split sc rows).2 = some q := by
  rcases hq : (find_best_split sc rows).2 with _ | q
  · exact absurd (fbs_none_fst sc rows hq) h
  · exact ⟨q, rfl⟩

/-- Fuel-indexed variant of `build`: `none` when the fuel runs out. Used to
state that the recursion of `build` terminates within `|rows|` nested calls. -/
def buildFuel (sc : ℚ) : Nat → List (List ℚ) → Option Node
  | 0, _ => none
  | fuel + 1, rows =>
    if (find_best_split sc rows).1 = 0 then some (.leaf (class_counts rows))
    else
      match (find_best_split sc rows).2 with
      | none => some (.leaf (class_counts rows))
      | some q =>
        match buildFuel sc fuel (partition rows q).1,
            buildFuel sc fuel (partition rows q).2 with
        | some t, some f => some (.decision q t f)
        | _, _ => none

/-- With more fuel than rows, the fuel-indexed builder succeeds and agrees
with `build`: the recursion terminates. -/
lemma buildFuel_eq_build (sc : ℚ) :
    ∀ fuel (rows : List (List ℚ)), rows.length < fuel →
      buildFuel sc fuel rows = some (build sc rows) := by
  intro fuel
  induction fuel with
  | zero => intro rows h; omega
  | succ fuel ih =>
    intro rows hlen
    rw [buildFuel]
    by_cases h : (find_best_split sc rows).1 = 0
    · rw [if_pos h, build_leaf_eq sc rows h]
    · rw [if_neg h]
      obtain ⟨q, hq⟩ := build_some_of_ne sc rows h
      obtain ⟨hs1, hs2⟩ := build_sides sc rows q h hq
      rw [hq]
      have e1 := ih (partition rows q).1 (by omega)
      have e2 := ih (partition rows q).2 (by omega)
      simp only [e1, e2]
      rw [build_decision_eq sc rows q h hq]

/-- Depth bound for the built tree: every accepted split removes at least
`stopping_criteria` rows from each side, so the depth is at most
`|rows| / stopping_criteria`. -/
lemma depth_build_le (sc : ℚ) (hsc : 0 < sc) :
    ∀ n (rows : List (List ℚ)), rows.length ≤ n →
      (depth (build sc rows) : ℚ) ≤ (rows.length : ℚ) / sc := by
  intro n
  induction n with
  | zero =>
    intro rows hlen
    have hnil : rows = [] := List.eq_nil_of_length_eq_zero (by omega)
    subst hnil
    rw [build_leaf_eq sc [] rfl]
    simp [depth]
  | succ n ih =>
    intro rows hlen
    by_cases h : (find_best_split sc rows).1 = 0
    · rw [build_leaf_eq sc rows h]
      simp only [depth, Nat.cast_zero]
      positivity
    · obtain ⟨q, hq⟩ := build_some_of_ne sc rows h
      obtain ⟨hs1, hs2⟩ := build_sides sc rows q h hq
      obtain ⟨he1, he2⟩ := (fbs_some sc rows q hq).1
      rw [build_decision_eq sc rows q h hq]
      have hpl := partition_length rows q
      have hcast : ((partition rows q).1.length : ℚ) + ((partition rows q).2.length : ℚ)
          = (rows.length : ℚ) := by exact_mod_cast hpl
      have hd1 := ih (partition rows q).1 (by omega)
      have hd2 := ih (partition rows q).2 (by omega)
      have hb1 : ((partition rows q).1.length : ℚ) ≤ (rows.length : ℚ) - sc := by
        linarith
      have hb2 : ((partition rows q).2.length : ℚ) ≤ (rows.length : ℚ) - sc := by
        linarith
      have hdiv1 : ((partition rows q).1.length : ℚ) / sc ≤ (rows.length : ℚ) / sc - 1 := by
        rw [show (rows.length : ℚ) / sc - 1 = ((rows.length : ℚ) - sc) / sc by
          rw [sub_div, div_self (ne_of_gt hsc)]]
        exact div_le_div_of_nonneg_right hb1 hsc.le
      have hdiv2 : ((partition rows q).2.length : ℚ) / sc ≤ (rows.length : ℚ) / sc - 1 := by
        rw [show (rows.length : ℚ) / sc - 1 = ((rows.length : ℚ) - sc) / sc by
          rw [sub_div, div_self (ne_of_gt hsc)]]
        exact div_le_div_of_nonneg_right hb2 hsc.le
      simp only [depth, Nat.cast_add, Nat.cast_one, Nat.cast_max]
      have hmax : max ((depth (build sc (partition rows q).1) : ℚ))
          ((depth (build sc (partition rows q).2) : ℚ)) ≤ (rows.length : ℚ) / sc - 1 :=
        max_le (le_trans hd1 hdiv1) (le_trans hd2 hdiv2)
      linarith

/-- Invariant of built trees: each branch of every decision node received at
least `stopping_criteria` rows at build time (measured by leaf weight). -/
def branchesOK (sc : ℚ) : Node → Prop
  | .leaf _ => True
  | .decision _ t f =>
      sc ≤ (weight t : ℚ) ∧ sc ≤ (weight f : ℚ) ∧ branchesOK sc t ∧ branchesOK sc f

instance decBranchesOK (sc : ℚ) : (n : Node) → Decidable (branchesOK sc n)
  | .leaf _ => .isTrue trivial
  | .decision _ t f =>
    have := decBranchesOK sc t
    have := decBranchesOK sc f
    inferInstanceAs (Decidable (And _ _))

/-- Invariant of built trees: every leaf histogram is non-empty with positive
counts. -/
def leavesPos : Node → Prop
  | .leaf cl => cl ≠ [] ∧ ∀ p ∈ cl, 0 < p.2
  | .decision _ t f => leavesPos t ∧ leavesPos f

instance decLeavesPos : (n : Node) → Decidable (leavesPos n)
  | .leaf cl => inferInstanceAs (Decidable (And _ _))
  | .decision _ t f =>
    have := decLeavesPos t
    have := decLeavesPos f
    inferInstanceAs (Decidable (And _ _))

/-- The leaf weights of a built tree sum to the number of training rows. -/
lemma weight_build (sc : ℚ) :
    ∀ n (rows : List (List ℚ)), rows.length ≤ n →
      weight (build sc rows) = rows.length := by
  intro n
  induction n with
  | zero =>
    intro rows hlen
    have hnil : rows = [] := List.eq_nil_of_length_eq_zero (by omega)
    subst hnil
    rw [build_leaf_eq sc [] rfl]
    simp [weight, class_counts]
  | succ n ih =>
    intro rows hlen
    by_cases h : (find_best_split sc rows).1 = 0
    · rw [build_leaf_eq sc rows h]
      simp only [weight]
      exact class_counts_sum rows
    · obtain ⟨q, hq⟩ := build_some_of_ne sc rows h
      obtain ⟨hs1, hs2⟩ := build_sides sc rows q h hq
      rw [build_decision_eq sc rows q h hq]
      simp only [weight]
      rw [ih (partition rows q).1 (by omega), ih (partition rows q).2 (by omega)]
      exact partition_length rows q

/-- Every decision node of a built tree sent at least `stopping_criteria`
rows into each branch. -/
lemma branchesOK_build (sc : ℚ) :
    ∀ n (rows : List (List ℚ)), rows.length ≤ n → branchesOK sc (build sc rows) := by
  intro n
  induction n with
  | zero =>
    intro rows hlen
    have hnil : rows = [] := List.eq_nil_of_length_eq_zero (by omega)
    subst hnil
    rw [build_leaf_eq sc [] rfl]
    trivial
  | succ n ih =>
    intro rows hlen
    by_cases h : (find_best_split sc rows).1 = 0
    · rw [build_leaf_eq sc rows h]
      trivial
    · obtain ⟨q, hq⟩ := build_some_of_ne sc rows h
      obtain ⟨hs1, hs2⟩ := build_sides sc rows q h hq
      obtain ⟨he1, he2⟩ := (fbs_some sc rows q hq).1
      rw [build_decision_eq sc rows q h hq]
      refine ⟨?_, ?_, ih _ (by omega), ih _ (by omega)⟩
      · rw [weight_build sc n (partition rows q).1 (by omega)]
        exact he1
      · rw [weight_build sc n (partition rows q).2 (by omega)]
        exact he2

/-- Every leaf of a tree built from non-empty rows holds a non-empty
histogram with positive counts. -/
lemma leavesPos_build (sc : ℚ) :
    ∀ n (rows : List (List ℚ)), rows.length ≤ n → rows ≠ [] →
      leavesPos (build sc rows) := by
  intro n
  induction n with
  | zero =>
    intro rows hlen hne
    exact absurd (List.eq_nil_of_length_eq_zero (by omega)) hne
  | succ n ih =>
    intro rows hlen hne
    by_cases h : (find_best_split sc rows).1 = 0
    · rw [build_leaf_eq sc rows h]
      exact ⟨class_counts_ne_nil rows hne, class_counts_pos rows⟩
    · obtain ⟨q, hq⟩ := build_some_of_ne sc rows h
      obtain ⟨hs1, hs2⟩ := build_sides sc rows q h hq
      have hpos : 0 < qgain rows q := by
        rw [← (fbs_some sc rows q hq).2]
        exact fbs_pos_of_ne sc rows h
      obtain ⟨hn1, hn2⟩ := qgain_pos_sides rows q hpos
      rw [build_decision_eq sc rows q h hq]
      exact ⟨ih _ (by omega) hn1, ih _ (by omega) hn2⟩

/-! ### Classification lemmas -/

lemma classify_eq_reach (row : List ℚ) (node : Node) :
    classify row node = top_pick (reach row node) := by
  induction node with
  | leaf cl => rfl
  | decision q t f iht ihf =>
    simp only [classify, reach]
    by_cases h : qmatch q row <;> simp [h, iht, ihf]

lemma classify_steps_le_depth (row : List ℚ) (node : Node) :
    classify_steps row node ≤ depth node := by
  induction node with
  | leaf cl => exact le_refl 0
  | decision q t f iht ihf =>
    simp only [classify_steps, depth]
    have h1 := le_max_left (depth t) (depth f)
    have h2 := le_max_right (depth t) (depth f)
    split <;> omega

lemma leavesPos_reach (row : List ℚ) (node : Node) (h : leavesPos node) :
    reach row node ≠ [] ∧ ∀ p ∈ reach row node, 0 < p.2 := by
  induction node with
  | leaf cl => exact h
  | decision q t f iht ihf =>
    simp only [reach]
    by_cases hm : qmatch q row
    · simp only [hm, if_true]
      exact iht h.1
    · simp only [hm, if_false]
      exact ihf h.2

/-- `l` is the label of the first histogram entry attaining the maximal
count: all earlier entries have strictly smaller counts, all later entries
have counts at most as large. -/
def isFirstMax (cl : List (ℚ × Nat)) (l : ℚ) : Prop :=
  ∃ pre c suf, cl = pre ++ (l, c) :: suf
    ∧ (∀ p ∈ pre, p.2 < c) ∧ (∀ p ∈ suf, p.2 ≤ c)

lemma top_pick_foldl_aux :
    ∀ (cl : List (ℚ × Nat)) (acc : ℚ × Nat),
      (cl.foldl (fun best p => if best.2 < p.2 then p else best) acc = acc
          ∧ ∀ p ∈ cl, p.2 ≤ acc.2)
        ∨ (∃ pre e suf, cl = pre ++ e :: suf
            ∧ cl.foldl (fun best p => if best.2 < p.2 then p else best) acc = e
            ∧ acc.2 < e.2
            ∧ (∀ p ∈ pre, p.2 < e.2 ∨ p.2 ≤ acc.2)
            ∧ (∀ p ∈ suf, p.2 ≤ e.2)) := by
  intro cl
  induction cl with
  | nil => intro acc; exact Or.inl ⟨rfl, by simp⟩
  | cons x rest ih =>
    intro acc
    rw [List.foldl_cons]
    by_cases hx : acc.2 < x.2
    · rw [if_pos hx]
      rcases ih x with ⟨heq, hall⟩ | ⟨pre, e, suf, hsplit, heq, hlt, hpre, hsuf⟩
      · refine Or.inr ⟨[], x, rest, by simp, heq, hx, by simp, hall⟩
      · refine Or.inr ⟨x :: pre, e, suf, by simp [hsplit], heq, lt_trans hx hlt, ?_, hsuf⟩
        intro p hp
        rcases List.mem_cons.mp hp with h | h
        · exact Or.inl (h ▸ hlt)
        · rcases hpre p h with h1 | h1
          · exact Or.inl h1
          · exact Or.inl (lt_of_le_of_lt h1 hlt)
    · rw [if_neg hx]
      rcases ih acc with ⟨heq, hall⟩ | ⟨pre, e, suf, hsplit, heq, hlt, hpre, hsuf⟩
      · refine Or.inl ⟨heq, fun p hp => ?_⟩
        rcases List.mem_cons.mp hp with h | h
        · exact h ▸ not_lt.mp hx
        · exact hall p h
      · refine Or.inr ⟨x :: pre, e, suf, by simp [hsplit], heq, hlt, ?_, hsuf⟩
        intro p hp
        rcases List.mem_cons.mp hp with h | h
        · exact Or.inr (h ▸ not_lt.mp hx)
        · exact hpre p h

/-- `top_pick` selects the first histogram entry with the maximal count
(strict improvements only, so later ties never overwrite), and the selected
label is one of the histogram's keys. -/
lemma top_pick_spec (cl : List (ℚ × Nat)) (hne : cl ≠ [])
    (hpos : ∀ p ∈ cl, 0 < p.2) :
    isFirstMax cl (top_pick cl) ∧ top_pick cl ∈ cl.map Prod.fst := by
  rcases top_pick_foldl_aux cl ((0 : ℚ), (0 : Nat)) with ⟨heq, hall⟩ |
    ⟨pre, e, suf, hsplit, heq, hlt, hpre, hsuf⟩
  · cases cl with
    | nil => exact absurd rfl hne
    | cons x rest =>
      have hx := hpos x (by simp)
      have := hall x (by simp)
      omega
  · have htp : top_pick cl = e.1 := by rw [top_pick, heq]
    constructor
    · refine ⟨pre, e.2, suf, by rw [htp, hsplit], ?_, hsuf⟩
      intro p hp
      rcases hpre p hp with h1 | h1
      · exact h1
      · have := hpos p (by rw [hsplit]; exact List.mem_append.mpr (Or.inl hp))
        omega
    · rw [htp]
      refine List.mem_map_of_mem Prod.fst ?_
      rw [hsplit]
      exact List.mem_append.mpr (Or.inr (by simp))

/-! ### Random-forest voting (`RandomForest.predict`, lines 353-389) -/

/-- Embedding of `np.unique(predictions[i], return_counts=True)` (line 375):
the distinct predicted labels of one row in ascending order, each paired with
its number of votes. -/
def votePairs (preds : List ℚ) : List (ℚ × Nat) :=
  (List.insertionSort (· ≤ ·) preds.dedup).map (fun l => (l, preds.count l))

/-- Embedding of the voting loop (lines 374-387): if all trees agree the
single label wins; otherwise scan the sorted label/count pairs keeping the
entry whose count strictly exceeds the best so far (so the first — smallest —
label of maximal count wins). The Python code tracks the winning index `j`;
the embedding equivalently tracks the winning pair. -/
def vote (preds : List ℚ) : ℚ :=
  if (votePairs preds).length = 1 then ((votePairs preds).headD (0, 0)).1
  else
    ((votePairs preds).foldl (fun best p => if best.2 < p.2 then p else best)
      ((0 : ℚ), (0 : Nat))).1

/-- Column projection `x[:, idx]` for one row (line 348 and line 363). -/
def project (idx : List Nat) (row : List ℚ) : List ℚ :=
  idx.map (fun j => row.getD j 0)

/-- Embedding of `Tree.random_forest_predict` (lines 276-280): one predicted
label per input row. -/
def random_forest_predict (root : Node) (x : List (List ℚ)) : List ℚ :=
  x.map (fun r => classify r root)

/-- The per-tree predicted labels for one sample, in tree order: row `i` of
the `rows × trees` prediction matrix filled on lines 356-367. -/
def rowVotes (forest : List (Node × List Nat)) (row : List ℚ) : List ℚ :=
  forest.map (fun tp => classify (project tp.2 row) tp.1)

/-- Embedding of `RandomForest.predict` (lines 353-389): each tree classifies
every row of `x` projected onto that tree's stored feature indices; the
per-row label lists (the matrix rows `predictions[i]`) are aggregated by
`vote`. -/
def rf_predict (forest : List (Node × List Nat)) (x : List (List ℚ)) : List ℚ :=
  x.map (fun row => vote (rowVotes forest row))

/-- Number of rows classified to their true label (the loop of lines 269-271). -/
def countCorrect (root : Node) (x : List (List ℚ)) (y : List ℚ) : Nat :=
  ((x.zip y).filter (fun p => decide (classify p.1 root = p.2))).length

/-- Embedding of `Tree.predict` (lines 266-273): the function counts the
correct classifications, prints `(n, correct, pct)` and ends without a
`return` statement. The first component is the printed data `(n, correct)`;
the second is the Python return value, which is always `None` (`none`). -/
def tree_predict (root : Node) (x : List (List ℚ)) (y : List ℚ) :
    (Nat × Nat) × Option (List ℚ) :=
  ((x.length, countCorrect root x y), none)

/-! ### Fitting (`Tree.fit`, lines 210-229; `RandomForest.fit`, lines 330-351) -/

/-- The state of a fitted `Tree`. -/
structure TreeState where
  stopping_criteria : ℚ
  root : Node
deriving DecidableEq, Repr

/-- Resolution of the stopping criterion (lines 223-226): an explicitly
supplied non-zero value is kept, otherwise `len(merged_train) / 10` — Python 3
true division, an exact rational, not a floor. -/
def resolve_sc (sc : ℚ) (n : Nat) : ℚ :=
  if sc ≠ 0 then sc else (n : ℚ) / 10

/-- Embedding of the merge loop of `Tree.fit` (lines 219-221).
`np.empty([len(x), len(x[0]) + 1])` raises `IndexError` when `x` is empty;
`merged_train[i] = np.append(x[i], y[i])` raises `IndexError` when `y` is
shorter than `x` and `ValueError` when row `i` is not as long as row `0`.
All of this happens before any attribute of the tree is assigned, and is
modelled as `none`. On success row `i` is `x[i] ++ [y[i]]` (labels beyond
`len(x)` are ignored by the loop). -/
def mergeTrain (x : List (List ℚ)) (y : List ℚ) : Option (List (List ℚ)) :=
  if x = [] ∨ y.length < x.length ∨ ¬(∀ r ∈ x, r.length = (x.headD []).length)
  then none
  else some (List.zipWith (fun r l => r ++ [l]) x y)

/-- Embedding of `Tree.fit` (lines 210-229): merge the features with the
labels, resolve the stopping criterion, build the tree. A failing merge
(`none`) happens before the tree's attributes are mutated, so no partially
fitted state exists. -/
def tree_fit (x : List (List ℚ)) (y : List ℚ) (sc : ℚ) : Option TreeState :=
  (mergeTrain x y).map (fun rows =>
    { stopping_criteria := resolve_sc sc rows.length
      root := build (resolve_sc sc rows.length) rows })

/-- Python exceptions that the embedded failure paths raise. The named error
kinds of spec §7 (EmptyDatasetError, DimensionMismatchError,
InvalidConfigurationError, UnfittedModelError) do not occur anywhere in the
source. -/
inductive PyError where
  | indexError
  | valueError
  | attributeError
deriving DecidableEq, Repr

/-- The mutable configuration of a `RandomForest` touched by the prefix of
`fit`: `max_features` (`None` until resolved, line 304 and lines 332-333). -/
structure RFState where
  max_features : Option Nat
deriving DecidableEq, Repr

/-- Embedding of the prefix of `RandomForest.fit` (lines 330-336) up to the
first contact with the training data. `np.shape(x)[1]` raises `IndexError`
for empty or ragged `x` (before any mutation); otherwise
`if not self.max_features` (both `None` and `0` are falsy) stores
`int(np.sqrt(n_features))` — a mutation of `self` — and only afterwards does
`get_random_subsets`' `np.concatenate` raise `ValueError` when
`len(x) ≠ len(y)`. The result is the post-state plus the raised error, if
any. -/
def rf_fit_validate (st : RFState) (x : List (List ℚ)) (y : List ℚ) :
    RFState × Option PyError :=
  if x = [] ∨ ¬(∀ r ∈ x, r.length = (x.headD []).length)
  then (st, some .indexError)
  else
    let st2 := if st.max_features.getD 0 = 0
      then { max_features := some (Nat.sqrt (x.headD []).length) } else st
    if x.length ≠ y.length then (st2, some .valueError) else (st2, none)

/-- Classification through the stored root: before `fit` the root is Python
`None` (line 118), so `Tree.predict`/`Tree.score` fail on line 285 with
`AttributeError` when they access `node.is_decision`. -/
def classifyRoot (root : Option Node) (row : List ℚ) : Except PyError ℚ :=
  match root with
  | none => .error .attributeError
  | some node => .ok (classify row node)

example : vote [0, 1, 1] = 1 := by decide
example : vote [0, 1] = 0 := by decide

lemma votePairs_entry (preds : List ℚ) :
    ∀ p ∈ votePairs preds, p.2 = preds.count p.1 := by
  intro p hp
  rcases List.mem_map.mp hp with ⟨l, _, hl⟩
  rw [← hl]

lemma votePairs_keys (preds : List ℚ) :
    (votePairs preds).map Prod.fst = List.insertionSort (· ≤ ·) preds.dedup := by
  rw [votePairs, List.map_map]
  exact List.map_id _

/-- The forest vote selects a label that actually received a vote, whose vote
count is maximal, and which is the smallest label among those of maximal
count (ties are broken towards the smaller label by the sorted scan). -/
lemma vote_spec (preds : List ℚ) (h : preds ≠ []) :
    vote preds ∈ preds.dedup
      ∧ (∀ l ∈ preds.dedup, preds.count l ≤ preds.count (vote preds))
      ∧ (∀ l ∈ preds.dedup, preds.count l = preds.count (vote preds)
          → vote preds ≤ l) := by
  have hdne : preds.dedup ≠ [] := by
    intro hd
    exact h ((List.dedup_eq_nil preds).mp hd)
  have hperm : List.Perm (List.insertionSort (· ≤ ·) preds.dedup) preds.dedup :=
    List.perm_insertionSort _ _
  have hsorted : List.Sorted (· ≤ ·) (List.insertionSort (· ≤ ·) preds.dedup) :=
    List.sorted_insertionSort _ _
  have hsne : List.insertionSort (· ≤ ·) preds.dedup ≠ [] := by
    intro hs
    rw [hs] at hperm
    exact hdne (hperm.symm.eq_nil)
  have hsmem : ∀ l, l ∈ List.insertionSort (· ≤ ·) preds.dedup ↔ l ∈ preds.dedup :=
    fun l => hperm.mem_iff
  by_cases h1 : (votePairs preds).length = 1
  · obtain ⟨p, hp⟩ := List.length_eq_one.mp h1
    have hv : vote preds = p.1 := by
      rw [vote, if_pos h1, hp]
      rfl
    have hslen : (List.insertionSort (· ≤ ·) preds.dedup).length = 1 := by
      have := congrArg List.length hp
      simpa [votePairs] using this
    obtain ⟨a, ha⟩ := List.length_eq_one.mp hslen
    have hpa : p = (a, preds.count a) := by
      rw [votePairs, ha] at hp
      simpa using hp.symm
    have hded : preds.dedup = [a] := by
      rw [ha] at hperm
      exact (List.perm_singleton.mp hperm.symm).symm ▸ rfl
    rw [hv, hpa]
    refine ⟨by rw [hded]; simp, ?_, ?_⟩
    · intro l hl
      rw [hded] at hl
      simp at hl
      simp [hl]
    · intro l hl _
      rw [hded] at hl
      simp at hl
      simp [hl]
  · have hv : vote preds = top_pick (votePairs preds) := by
      rw [vote, if_neg h1]
      rfl
    have hvpne : votePairs preds ≠ [] := by
      intro hn
      have := congrArg List.length hn
      simp [votePairs] at this
      exact hsne (List.eq_nil_of_length_eq_zero (by simpa [votePairs] using this))
    have hvpos : ∀ p ∈ votePairs preds, 0 < p.2 := by
      intro p hp
      rw [votePairs_entry preds p hp]
      refine List.count_pos_iff.mpr ?_
      rcases List.mem_map.mp hp with ⟨l, hl, hlp⟩
      rw [← hlp]
      exact List.mem_dedup.mp ((hsmem l).mp hl)
    obtain ⟨hfm, hmem⟩ := top_pick_spec (votePairs preds) hvpne hvpos
    obtain ⟨pre, c, suf, hsplit, hpre, hsuf⟩ := hfm
    rw [← hv] at hsplit hmem
    have hc : c = preds.count (vote preds) := by
      have : (vote preds, c) ∈ votePairs preds := by
        rw [hsplit]
        exact List.mem_append.mpr (Or.inr (by simp))
      exact votePairs_entry preds _ this
    have hentry : ∀ l ∈ preds.dedup, (l, preds.count l) ∈ votePairs preds := by
      intro l hl
      exact List.mem_map_of_mem _ ((hsmem l).mpr hl)
    refine ⟨?_, ?_, ?_⟩
    · rw [votePairs_keys] at hmem
      exact (hsmem _).mp hmem
    · intro l hl
      have hin := hentry l hl
      rw [hsplit] at hin
      rcases List.mem_append.mp hin with hin | hin
      · have := hpre _ hin
        simp at this
        omega
      · rcases List.mem_cons.mp hin with hin | hin
        · have : preds.count l = c := congrArg Prod.snd hin
          omega
        · have := hsuf _ hin
          simp at this
          omega
    · intro l hl htie
      have hin := hentry l hl
      rw [hsplit] at hin
      rcases List.mem_append.mp hin with hin | hin
      · have := hpre _ hin
        simp at this
        omega
      · rcases List.mem_cons.mp hin with hin | hin
        · have : l = vote preds := congrArg Prod.fst hin
          rw [this]
        · have hl_in_suf : l ∈ suf.map Prod.fst := List.mem_map_of_mem Prod.fst hin
          have hskeys : List.insertionSort (· ≤ ·) preds.dedup
              = pre.map Prod.fst ++ vote preds :: suf.map Prod.fst := by
            rw [← votePairs_keys, hsplit]
            simp
          have hpw := hsorted
          rw [List.Sorted, hskeys] at hpw
          have hrel := (List.pairwise_append.mp hpw).2.1
          exact (List.pairwise_cons.mp hrel).1 l hl_in_suf

lemma mergeTrain_some (x : List (List ℚ)) (y : List ℚ) (rows : List (List ℚ))
    (h : mergeTrain x y = some rows) :
    x ≠ [] ∧ x.length ≤ y.length ∧ rows.length = x.length := by
  rw [mergeTrain] at h
  split at h
  · cases h
  · next hcond =>
    push_neg at hcond
    injection h with h
    refine ⟨hcond.1, hcond.2.1, ?_⟩
    rw [← h, List.length_zipWith]
    omega

/-! ### Claim theorems -/

/-- C1 (counterexample): on the two-row one-label set `[[1,0],[2,0]]` with
`stopping_criteria = 1`, `find_best_split` returns gain `0` yet an eligible
candidate split exists (refuting "gain 0 iff no eligible candidate split
exists"), and it returns the non-null question `(0, 2)` although no candidate
improves over the parent — every candidate's gain is `0` (refuting
"best_question is null iff no candidate beat the initial gain of 0, i.e. no
split improves over the parent or all candidates were rejected"). -/
theorem C1_counterexample :
    (find_best_split 1 [[1, 0], [2, 0]]).1 = 0
    ∧ (find_best_split 1 [[1, 0], [2, 0]]).2 = some ⟨0, 2⟩
    ∧ (⟨0, 2⟩ : Question) ∈ candidates [[1, 0], [2, 0]]
    ∧ eligible 1 [[1, 0], [2, 0]] ⟨0, 2⟩
    ∧ (∀ q ∈ candidates [[1, 0], [2, 0]], qgain [[1, 0], [2, 0]] q = 0) := by
  have h1 : candidates [[1, 0], [2, 0]] = [⟨0, 1⟩, ⟨0, 2⟩] := by decide
  have h2 : gini [[1, 0], [2, 0]] = 0 := by norm_num [gini, class_counts, bump, labelOf]
  have h3 : partition [[1, 0], [2, 0]] ⟨0, 1⟩ = ([[1, 0], [2, 0]], []) := by decide
  have h4 : partition [[1, 0], [2, 0]] ⟨0, 2⟩ = ([[2, 0]], [[1, 0]]) := by decide
  have h5 : info_gain [[2, 0]] [[1, 0]] 0 = 0 := by
    norm_num [info_gain, gini, class_counts, bump, labelOf]
  have hfbs : find_best_split 1 [[1, 0], [2, 0]] = (0, some ⟨0, 2⟩) := by
    rw [find_best_split, h1, h2]
    simp [fbs_step, h3, h4, h5]
  refine ⟨by rw [hfbs], by rw [hfbs], by rw [h1]; simp, ?_, ?_⟩
  · rw [eligible, h4]
    norm_num
  · intro q hq
    rw [h1] at hq
    rcases (by simpa using hq : q = ⟨0, 1⟩ ∨ q = ⟨0, 2⟩) with h | h
    · subst h
      exact qgain_right_nil _ _ (congrArg Prod.snd h3)
    · subst h
      rw [qgain, h4]
      simp only []
      rw [h2, h5]

/-- C1 (amended): for every non-empty row set, `find_best_split` returns a
never-negative gain; the gain is `0` iff every candidate passing the
row-count floor has gain exactly `0` (equivalently, since gains are never
negative, iff no eligible candidate has strictly positive gain); and the
question is null iff no candidate passes the row-count floor at all — an
eligible candidate with zero gain still sets the question, because the
update comparison `gain >= most_gain` is non-strict. -/
theorem C1_best_split (sc : ℚ) (rows : List (List ℚ)) (h : rows ≠ []) :
    0 ≤ (find_best_split sc rows).1
    ∧ ((find_best_split sc rows).1 = 0
        ↔ ∀ q ∈ candidates rows, eligible sc rows q → qgain rows q = 0)
    ∧ (∀ q ∈ candidates rows, 0 ≤ qgain rows q)
    ∧ ((find_best_split sc rows).2 = none
        ↔ ∀ q ∈ candidates rows, ¬eligible sc rows q) :=
  ⟨fbs_fst_nonneg sc rows, fbs_fst_eq_zero_iff sc rows,
    fun q _ => qgain_nonneg rows q, fbs_none_iff sc rows⟩

theorem C1_best_split_witness :
    ([[1, 0], [2, 0]] : List (List ℚ)) ≠ []
    ∧ (0 ≤ (find_best_split 1 [[1, 0], [2, 0]]).1
      ∧ ((find_best_split 1 [[1, 0], [2, 0]]).1 = 0
          ↔ ∀ q ∈ candidates [[1, 0], [2, 0]],
              eligible 1 [[1, 0], [2, 0]] q → qgain [[1, 0], [2, 0]] q = 0)
      ∧ (∀ q ∈ candidates [[1, 0], [2, 0]], 0 ≤ qgain [[1, 0], [2, 0]] q)
      ∧ ((find_best_split 1 [[1, 0], [2, 0]]).2 = none
          ↔ ∀ q ∈ candidates [[1, 0], [2, 0]], ¬eligible 1 [[1, 0], [2, 0]] q)) :=
  ⟨by decide, C1_best_split 1 [[1, 0], [2, 0]] (by decide)⟩

/-- C2: `RandomForest.predict` aggregates, for each row, the per-tree labels
by `vote`: the ascending-sorted distinct labels with their vote counts,
selecting the label with the strictly highest count, keeping on a tie the
first (smallest) label in sorted order — so the winner received a vote, has
maximal count, and is the smallest among max-count labels; per-tree
predictions `[0,1,1]` yield `1` and the two-tree tie `[0,1]` yields `0`. -/
theorem C2_majority_vote :
    (∀ forest (x : List (List ℚ)),
        rf_predict forest x = x.map (fun row => vote (rowVotes forest row)))
    ∧ (∀ preds : List ℚ, preds ≠ [] →
        vote preds ∈ preds.dedup
        ∧ (∀ l ∈ preds.dedup, preds.count l ≤ preds.count (vote preds))
        ∧ (∀ l ∈ preds.dedup, preds.count l = preds.count (vote preds)
            → vote preds ≤ l))
    ∧ vote [0, 1, 1] = 1 ∧ vote [0, 1] = 0 :=
  ⟨fun _ _ => rfl, vote_spec, by decide, by decide⟩

theorem C2_majority_vote_witness :
    ([0, 1, 1] : List ℚ) ≠ []
    ∧ (vote [0, 1, 1] ∈ ([0, 1, 1] : List ℚ).dedup
      ∧ (∀ l ∈ ([0, 1, 1] : List ℚ).dedup,
          ([0, 1, 1] : List ℚ).count l ≤ ([0, 1, 1] : List ℚ).count (vote [0, 1, 1]))
      ∧ (∀ l ∈ ([0, 1, 1] : List ℚ).dedup,
          ([0, 1, 1] : List ℚ).count l = ([0, 1, 1] : List ℚ).count (vote [0, 1, 1])
            → vote [0, 1, 1] ≤ l)) :=
  ⟨by decide, C2_majority_vote.2.1 [0, 1, 1] (by decide)⟩

/-- C3 (counterexample): fitting 15 rows with `stopping_criteria = 0` stores
`15 / 10 = 3/2` — Python 3 true division, not the claimed floor
`⌊15/10⌋ = 1`; and fitting 5 rows stores `1/2 < 1`, refuting
"`stopping_criteria ≥ 1` after resolution". -/
theorem C3_counterexample :
    (tree_fit (List.replicate 15 [1]) (List.replicate 15 0) 0).map
        TreeState.stopping_criteria = some (3 / 2)
    ∧ (3 / 2 : ℚ) ≠ ((15 / 10 : Nat) : ℚ)
    ∧ (tree_fit (List.replicate 5 [1]) (List.replicate 5 0) 0).map
        TreeState.stopping_criteria = some (1 / 2)
    ∧ ¬(1 : ℚ) ≤ (1 / 2 : ℚ) := by
  have hm15 : mergeTrain (List.replicate 15 [(1 : ℚ)]) (List.replicate 15 0)
      = some (List.replicate 15 [1, 0]) := by decide
  have hm5 : mergeTrain (List.replicate 5 [(1 : ℚ)]) (List.replicate 5 0)
      = some (List.replicate 5 [1, 0]) := by decide
  refine ⟨?_, by norm_num, ?_, by norm_num⟩
  · rw [tree_fit, hm15]
    simp only [Option.map_some']
    norm_num [resolve_sc]
  · rw [tree_fit, hm5]
    simp only [Option.map_some']
    norm_num [resolve_sc]

/-- C3 (amended): whenever `Tree.fit` is called with `stopping_criteria = 0`
on input that passes the merge loop, the stored stopping criterion is the
exact rational `n/10` (true division, not a floor) for the `n` training
rows; it is strictly positive, but it is at least `1` only when `n ≥ 10`
(e.g. 5 rows give `1/2`). -/
theorem C3_stopping_criteria (x : List (List ℚ)) (y : List ℚ)
    (h : mergeTrain x y ≠ none) :
    (tree_fit x y 0).map TreeState.stopping_criteria = some ((x.length : ℚ) / 10)
    ∧ 0 < (x.length : ℚ) / 10
    ∧ (10 ≤ x.length → 1 ≤ (x.length : ℚ) / 10) := by
  obtain ⟨rows, hrows⟩ := Option.ne_none_iff_exists'.mp h
  obtain ⟨hxne, hxy, hlen⟩ := mergeTrain_some x y rows hrows
  have hres : resolve_sc 0 rows.length = (x.length : ℚ) / 10 := by
    rw [resolve_sc, if_neg (by simp), hlen]
  have hxpos : 0 < x.length := List.length_pos.mpr hxne
  have hxq : (0 : ℚ) < (x.length : ℚ) := by exact_mod_cast hxpos
  refine ⟨?_, by positivity, ?_⟩
  · rw [tree_fit, hrows]
    simp only [Option.map_some']
    rw [hres]
  · intro h10
    rw [le_div_iff₀ (by norm_num : (0 : ℚ) < 10)]
    have : (10 : ℚ) ≤ (x.length : ℚ) := by exact_mod_cast h10
    linarith

theorem C3_stopping_criteria_witness :
    mergeTrain (List.replicate 15 [(1 : ℚ)]) (List.replicate 15 0) ≠ none
    ∧ ((tree_fit (List.replicate 15 [(1 : ℚ)]) (List.replicate 15 0) 0).map
          TreeState.stopping_criteria
        = some (((List.replicate 15 [(1 : ℚ)]).length : ℚ) / 10)
      ∧ 0 < ((List.replicate 15 [(1 : ℚ)]).length : ℚ) / 10
      ∧ (10 ≤ (List.replicate 15 [(1 : ℚ)]).length
          → 1 ≤ ((List.replicate 15 [(1 : ℚ)]).length : ℚ) / 10)) :=
  ⟨by decide, C3_stopping_criteria (List.replicate 15 [1]) (List.replicate 15 0) (by decide)⟩

/-- C4: for every non-empty row set, the Gini impurity is
`1 - Σ_label (count/total)²` over the distinct labels, lies in
`[0, 1 - 1/k]` for `k` distinct labels, and is `0` exactly when all rows
carry one label. -/
theorem C4_gini_bounds (rows : List (List ℚ)) (h : rows ≠ []) :
    gini rows = 1 - ∑ l ∈ (rows.map labelOf).toFinset,
        (((rows.map labelOf).count l : ℚ) / (rows.length : ℚ)) ^ 2
    ∧ 0 ≤ gini rows
    ∧ gini rows ≤ 1 - 1 / (((rows.map labelOf).toFinset.card : ℚ))
    ∧ (gini rows = 0 ↔ ∀ r ∈ rows, labelOf r = labelOf (rows.headD [])) :=
  ⟨gini_eq_sum rows _ (fun l hl => List.mem_toFinset.mpr hl), gini_nonneg rows,
    gini_le_one_sub rows h, gini_eq_zero_iff rows h⟩

theorem C4_gini_bounds_witness :
    ([[1, 0], [2, 1]] : List (List ℚ)) ≠ []
    ∧ (gini [[1, 0], [2, 1]]
        = 1 - ∑ l ∈ (([[1, 0], [2, 1]] : List (List ℚ)).map labelOf).toFinset,
            (((([[1, 0], [2, 1]] : List (List ℚ)).map labelOf).count l : ℚ)
              / (([[1, 0], [2, 1]] : List (List ℚ)).length : ℚ)) ^ 2
      ∧ 0 ≤ gini [[1, 0], [2, 1]]
      ∧ gini [[1, 0], [2, 1]]
          ≤ 1 - 1 / (((([[1, 0], [2, 1]] : List (List ℚ)).map labelOf).toFinset.card : ℚ))
      ∧ (gini [[1, 0], [2, 1]] = 0
          ↔ ∀ r ∈ ([[1, 0], [2, 1]] : List (List ℚ)),
              labelOf r = labelOf (([[1, 0], [2, 1]] : List (List ℚ)).headD []))) :=
  ⟨by decide, C4_gini_bounds [[1, 0], [2, 1]] (by decide)⟩

/-- C5: for positive stopping criteria and non-empty rows, the recursive
build terminates — the fuel-indexed builder with `|rows| + 1` fuel returns
the tree — with recursion depth at most `|rows| / stopping_criteria`;
whenever `find_best_split` records a question, both of its partition sides
keep at least `stopping_criteria` rows, so each side shrinks by at least
`stopping_criteria` rows, and strictly. -/
theorem C5_build_terminates (sc : ℚ) (hsc : 0 < sc) (rows : List (List ℚ))
    (h : rows ≠ []) :
    buildFuel sc (rows.length + 1) rows = some (build sc rows)
    ∧ (depth (build sc rows) : ℚ) ≤ (rows.length : ℚ) / sc
    ∧ ∀ q, (find_best_split sc rows).2 = some q →
        ((partition rows q).1.length : ℚ) ≤ (rows.length : ℚ) - sc
        ∧ ((partition rows q).2.length : ℚ) ≤ (rows.length : ℚ) - sc
        ∧ (partition rows q).1.length < rows.length
        ∧ (partition rows q).2.length < rows.length := by
  refine ⟨buildFuel_eq_build sc (rows.length + 1) rows (by omega),
    depth_build_le sc hsc rows.length rows (le_refl _), ?_⟩
  intro q hq
  obtain ⟨he1, he2⟩ := (fbs_some sc rows q hq).1
  have hpl := partition_length rows q
  have hcast : ((partition rows q).1.length : ℚ) + ((partition rows q).2.length : ℚ)
      = (rows.length : ℚ) := by exact_mod_cast hpl
  have hpos1 : 0 < (partition rows q).1.length := by
    by_contra hc
    have : (partition rows q).1.length = 0 := by omega
    rw [this] at he1
    simp at he1
    linarith
  have hpos2 : 0 < (partition rows q).2.length := by
    by_contra hc
    have : (partition rows q).2.length = 0 := by omega
    rw [this] at he2
    simp at he2
    linarith
  exact ⟨by linarith, by linarith, by omega, by omega⟩

theorem C5_build_terminates_witness :
    (0 : ℚ) < 1
    ∧ ([[1, 0], [2, 0], [3, 1], [4, 1]] : List (List ℚ)) ≠ []
    ∧ (buildFuel 1 (([[1, 0], [2, 0], [3, 1], [4, 1]] : List (List ℚ)).length + 1)
          [[1, 0], [2, 0], [3, 1], [4, 1]]
        = some (build 1 [[1, 0], [2, 0], [3, 1], [4, 1]])
      ∧ (depth (build 1 [[1, 0], [2, 0], [3, 1], [4, 1]]) : ℚ)
          ≤ (([[1, 0], [2, 0], [3, 1], [4, 1]] : List (List ℚ)).length : ℚ) / 1
      ∧ ∀ q, (find_best_split 1 [[1, 0], [2, 0], [3, 1], [4, 1]]).2 = some q →
          ((partition [[1, 0], [2, 0], [3, 1], [4, 1]] q).1.length : ℚ)
              ≤ (([[1, 0], [2, 0], [3, 1], [4, 1]] : List (List ℚ)).length : ℚ) - 1
          ∧ ((partition [[1, 0], [2, 0], [3, 1], [4, 1]] q).2.length : ℚ)
              ≤ (([[1, 0], [2, 0], [3, 1], [4, 1]] : List (List ℚ)).length : ℚ) - 1
          ∧ (partition [[1, 0], [2, 0], [3, 1], [4, 1]] q).1.length
              < ([[1, 0], [2, 0], [3, 1], [4, 1]] : List (List ℚ)).length
          ∧ (partition [[1, 0], [2, 0], [3, 1], [4, 1]] q).2.length
              < ([[1, 0], [2, 0], [3, 1], [4, 1]] : List (List ℚ)).length) :=
  ⟨by norm_num, by decide,
    C5_build_terminates 1 (by norm_num) [[1, 0], [2, 0], [3, 1], [4, 1]] (by decide)⟩

/-- C6: in every built tree, a decision node structurally carries both a true
and a false branch (the `Node.decision` constructor takes both), the leaf
weights below the root sum to the number of training rows, and every decision
node's branches each received at least `stopping_criteria` rows at build
time (the branch's leaf weight, which equals its row count). -/
theorem C6_decision_branches (sc : ℚ) (rows : List (List ℚ)) :
    weight (build sc rows) = rows.length ∧ branchesOK sc (build sc rows) :=
  ⟨weight_build sc rows.length rows (le_refl _),
    branchesOK_build sc rows.length rows (le_refl _)⟩

/-- C7: trees built from non-empty rows have only non-empty positive-count
leaf histograms (an invariant inherited by every subtree); on any such tree,
`classify` reaches the leaf selected by the decisions in at most
`depth(tree)` recursive steps and returns `top_pick` of that leaf's
histogram: the first label of maximal count in insertion order, which is
always one of the histogram's keys. -/
theorem C7_classify_spec (sc : ℚ) (rows : List (List ℚ)) (h : rows ≠ []) :
    leavesPos (build sc rows)
    ∧ ∀ node : Node, leavesPos node → ∀ sample : List ℚ,
        classify_steps sample node ≤ depth node
        ∧ classify sample node = top_pick (reach sample node)
        ∧ isFirstMax (reach sample node) (classify sample node)
        ∧ classify sample node ∈ (reach sample node).map Prod.fst := by
  refine ⟨leavesPos_build sc rows.length rows (le_refl _) h, ?_⟩
  intro node hlp sample
  obtain ⟨hne, hpos⟩ := leavesPos_reach sample node hlp
  obtain ⟨hfm, hmem⟩ := top_pick_spec (reach sample node) hne hpos
  refine ⟨classify_steps_le_depth sample node, classify_eq_reach sample node, ?_, ?_⟩
  · rw [classify_eq_reach sample node]
    exact hfm
  · rw [classify_eq_reach sample node]
    exact hmem

theorem C7_classify_spec_witness :
    ([[1, 0]] : List (List ℚ)) ≠ []
    ∧ leavesPos (Node.decision ⟨0, 3⟩ (Node.leaf [(1, 2)]) (Node.leaf [(0, 2)]))
    ∧ (leavesPos (build 1 [[1, 0]])
      ∧ ∀ node : Node, leavesPos node → ∀ sample : List ℚ,
          classify_steps sample node ≤ depth node
          ∧ classify sample node = top_pick (reach sample node)
          ∧ isFirstMax (reach sample node) (classify sample node)
          ∧ classify sample node ∈ (reach sample node).map Prod.fst) :=
  ⟨by decide, by decide, C7_classify_spec 1 [[1, 0]] (by decide)⟩

/-- C8 (counterexample): `Tree.predict` does not return a length-M label
vector: it takes `(x, y)`, prints an accuracy line, and returns Python
`None`, so on a concrete fitted leaf tree and a 2-row input there is no
returned vector at all. -/
theorem C8_counterexample :
    (tree_predict (Node.leaf [(0, 1)]) [[1], [2]] [0, 0]).2 = none
    ∧ ¬∃ ys : List ℚ,
        (tree_predict (Node.leaf [(0, 1)]) [[1], [2]] [0, 0]).2 = some ys
          ∧ ys.length = 2 := by
  refine ⟨rfl, ?_⟩
  rintro ⟨ys, hy, _⟩
  cases hy

/-- C8 (amended): `RandomForest.predict` returns one label per input row
(a length-M vector), as does the per-tree routine `random_forest_predict`
that it calls; the single tree's own `predict(x, y)` returns no vector —
its Python return value is always `None` (it prints `(n, correct, pct)`
instead). -/
theorem C8_predict_lengths :
    (∀ forest (x : List (List ℚ)), (rf_predict forest x).length = x.length)
    ∧ (∀ root (x : List (List ℚ)), (random_forest_predict root x).length = x.length)
    ∧ (∀ root (x : List (List ℚ)) (y : List ℚ), (tree_predict root x y).2 = none) :=
  ⟨fun _ x => List.length_map x _, fun _ x => List.length_map x _, fun _ _ _ => rfl⟩

/-- C9 (counterexample): with an unset `max_features`, calling
`RandomForest.fit` on the malformed input `x = [[1,2],[3,4]]`, `y = [0]`
(`len(x) ≠ len(y)`) raises its error only after `max_features` has been
resolved and stored — the state mutates from `none` to `some 1` before the
failure — refuting "validated eagerly ... before any mutation"; and
`predict`/`score` before `fit` fail with a plain `AttributeError` on the
`None` root, not a dedicated `UnfittedModelError`. -/
theorem C9_counterexample :
    rf_fit_validate ⟨none⟩ [[1, 2], [3, 4]] [0]
      = (⟨some 1⟩, some PyError.valueError)
    ∧ (⟨some 1⟩ : RFState) ≠ ⟨none⟩
    ∧ classifyRoot none [1] = Except.error PyError.attributeError := by
  have hs : Nat.sqrt 2 = 1 := by
    have h1 : 1 ≤ Nat.sqrt 2 := Nat.le_sqrt.mpr (by norm_num)
    have h2 : Nat.sqrt 2 < 2 := Nat.sqrt_lt_self (by norm_num)
    omega
  refine ⟨?_, by decide, rfl⟩
  rw [rf_fit_validate, if_neg (by decide)]
  simp [hs]

/-- C9 (amended): the source performs no eager validation. For `Tree.fit`, a
malformed input fails inside the label-merge loop before any tree attribute
is assigned, so no partially fitted tree state ever exists; for
`RandomForest.fit` on rectangular input with `len(x) ≠ len(y)`, the
`ValueError` surfaces only after the (falsy) `max_features` has been resolved
to `int(sqrt(n_features))` and stored; and classification through an unfit
root reports `AttributeError`, not an `UnfittedModelError`. -/
theorem C9_no_validation :
    (∀ (x : List (List ℚ)) (y : List ℚ) (sc : ℚ),
        mergeTrain x y = none → tree_fit x y sc = none)
    ∧ (∀ (st : RFState) (x : List (List ℚ)) (y : List ℚ),
        x ≠ [] → (∀ r ∈ x, r.length = (x.headD []).length) → x.length ≠ y.length →
          (rf_fit_validate st x y).2 = some PyError.valueError
          ∧ (st.max_features.getD 0 = 0 →
              (rf_fit_validate st x y).1 = ⟨some (Nat.sqrt (x.headD []).length)⟩))
    ∧ (∀ row : List ℚ, classifyRoot none row = Except.error PyError.attributeError) := by
  refine ⟨?_, ?_, fun _ => rfl⟩
  · intro x y sc hm
    rw [tree_fit, hm]
    rfl
  · intro st x y hne hrect hxy
    rw [rf_fit_validate]
    rw [if_neg (by push_neg; exact ⟨hne, hrect⟩)]
    simp only []
    constructor
    · rw [if_pos hxy]
    · intro hfalsy
      rw [if_pos hfalsy, if_pos hxy]

theorem C9_no_validation_witness :
    mergeTrain ([] : List (List ℚ)) [] = none
    ∧ tree_fit ([] : List (List ℚ)) [] 1 = none
    ∧ ([[1, 2], [3, 4]] : List (List ℚ)) ≠ []
    ∧ (∀ r ∈ ([[1, 2], [3, 4]] : List (List ℚ)),
        r.length = (([[1, 2], [3, 4]] : List (List ℚ)).headD []).length)
    ∧ ([[1, 2], [3, 4]] : List (List ℚ)).length ≠ ([0] : List ℚ).length
    ∧ ((rf_fit_validate ⟨none⟩ [[1, 2], [3, 4]] [0]).2 = some PyError.valueError
      ∧ ((⟨none⟩ : RFState).max_features.getD 0 = 0 →
          (rf_fit_validate ⟨none⟩ [[1, 2], [3, 4]] [0]).1
            = ⟨some (Nat.sqrt (([[1, 2], [3, 4]] : List (List ℚ)).headD []).length)⟩)) :=
  ⟨by decide, C9_no_validation.1 [] [] 1 (by decide), by decide, by decide, by decide,
    C9_no_validation.2.1 ⟨none⟩ [[1, 2], [3, 4]] [0] (by decide) (by decide) (by decide)⟩

/-- C10: `gini` of the empty row set is total and returns exactly `1` (its
histogram has no entries, so the division by the zero sample count is never
performed); a candidate split of a non-empty row set with one empty side has
information gain exactly `0`; and whenever `find_best_split` reports gain
`0`, `build` produces the leaf holding the row set's histogram instead of
recursing or failing. -/
theorem C10_empty_side (rows : List (List ℚ)) (h : rows ≠ []) :
    gini [] = 1
    ∧ (∀ q : Question,
        (partition rows q).1 = [] ∨ (partition rows q).2 = [] → qgain rows q = 0)
    ∧ (∀ sc : ℚ, (find_best_split sc rows).1 = 0
        → build sc rows = Node.leaf (class_counts rows)) := by
  refine ⟨gini_nil, ?_, fun sc h0 => build_leaf_eq sc rows h0⟩
  intro q hq
  rcases hq with hq | hq
  · exact qgain_left_nil rows q hq
  · exact qgain_right_nil rows q hq

theorem C10_empty_side_witness :
    ([[1, 0]] : List (List ℚ)) ≠ []
    ∧ (partition [[1, 0]] ⟨0, 2⟩).1 = []
    ∧ qgain [[1, 0]] ⟨0, 2⟩ = 0
    ∧ (find_best_split 1 [[1, 0]]).1 = 0
    ∧ build 1 [[1, 0]] = Node.leaf (class_counts [[1, 0]]) :=
  ⟨by decide, by decide,
    (C10_empty_side [[1, 0]] (by decide)).2.1 ⟨0, 2⟩ (Or.inl (by decide)),
    by decide,
    (C10_empty_side [[1, 0]] (by decide)).2.2 1 (by decide)⟩
